import Mathlib

/-!
# Event reconstruction in `viewer/data/data.go`

A shallow embedding of `Data.LoadEvents` (thread indexing, per-thread interval
stacks, coalescing, snapshot publication) together with the properties of the
reconstruction pass.

Modelling conventions

* Times are `float64` values read from the store; the pass only compares them,
  so they are modelled by the ordered field `ℚ`.
* A Go run-time panic (index out of range) is the result `none`.
* `threadStacks[i]` is kept top first: Go's `s[len(s)-1]` is the head of the
  list, `s[:len(s)-1]` its tail and `append(s, x)` is `x :: s`.
* The local sentinel value `-1` of `evt.ThreadIndex` and `prevEventAtLevel` is
  `none`.
-/

set_option linter.dupNamespace false

namespace Context2

/-- Seconds relative to the start of the log. -/
abbrev Time := ℚ

/-- One row of the query of `LoadEvents`: the ten columns read by `query.Scan`. -/
structure Row where
  ID : Int
  ThreadID : Int
  StartLocation : String
  EndLocation : String
  StartTime : Time
  EndTime : Time
  StartType : String
  EndType : String
  StartText : String
  EndText : String
deriving DecidableEq

/-- The fields of `event.Event` used by `LoadEvents`. -/
structure Event where
  ID : Int
  ThreadID : Int
  ThreadIndex : Int
  Depth : Int
  StartLocation : String
  EndLocation : String
  StartTime : Time
  EndTime : Time
  StartType : String
  EndType : String
  StartText : String
  EndText : String
deriving DecidableEq

/-- Modelled from the spec: `Event.NewEvent` (package `event`) is missing from the
sources; it initialises an event before the row is scanned into it, the depth
being "left at a default/unused value". -/
def NewEvent : Event :=
  { ID := 0, ThreadID := 0, ThreadIndex := 0, Depth := 0,
    StartLocation := "", EndLocation := "", StartTime := 0, EndTime := 0,
    StartType := "", EndType := "", StartText := "", EndText := "" }

/-- Modelled from the spec: `Event.Merge` (package `event`) is missing from the
sources; it "extends `previous.end_time`, `end_type`, `end_text`, `end_location`
to those of `candidate`, leaving `previous.start_*` untouched". -/
def Merge (previous candidate : Event) : Event :=
  { previous with
    EndTime := candidate.EndTime, EndType := candidate.EndType,
    EndText := candidate.EndText, EndLocation := candidate.EndLocation }

/-- Modelled from the spec: the compatibility part of `Event.CanMerge` (package
`event`, missing from the sources): "same classification tags". -/
def compatible (previous candidate : Event) : Bool :=
  decide (previous.StartType = candidate.StartType) &&
    decide (previous.EndType = candidate.EndType)

/-- Modelled from the spec: `Event.CanMerge` (package `event`) is missing from the
sources; it "approves merging when the gap between `previous.end_time` and
`candidate.start_time` does not exceed `thresholdSeconds` and the two intervals
are compatible for merging". -/
def CanMerge (previous candidate : Event) (thresholdSeconds : Time) : Bool :=
  decide (candidate.StartTime - previous.EndTime ≤ thresholdSeconds) &&
    compatible previous candidate

/-- The final `sort.Sort(event.ByType(newData))`: the comparator of package
`event` is missing from the sources; `sort.Sort` only swaps elements, so whatever
the comparator the result is a rearrangement of its argument. -/
structure ByTypeSort where
  sort : List Event → List Event
  perm : ∀ l, List.Perm (sort l) l

/-- Lines 183-192: a fresh event with the ten scanned columns filled in. -/
def loadRow (r : Row) : Event :=
  { NewEvent with
    ID := r.ID, ThreadID := r.ThreadID,
    StartLocation := r.StartLocation, EndLocation := r.EndLocation,
    StartTime := r.StartTime, EndTime := r.EndTime,
    StartType := r.StartType, EndType := r.EndType,
    StartText := r.StartText, EndText := r.EndText }

/-- The ten scanned columns of an event. -/
def Event.toRow (e : Event) : Row :=
  { ID := e.ID, ThreadID := e.ThreadID,
    StartLocation := e.StartLocation, EndLocation := e.EndLocation,
    StartTime := e.StartTime, EndTime := e.EndTime,
    StartType := e.StartType, EndType := e.EndType,
    StartText := e.StartText, EndText := e.EndText }

/-- Lines 196-201: the scan over `newVisibleThreadIDs`, which has no `break` and
so keeps the last matching position; `i` is the loop counter, `found` the value
of `evt.ThreadIndex` so far. -/
def scanThreadIDs (tid : Int) : List Int → Nat → Option Nat → Option Nat
  | [], _, found => found
  | x :: xs, i, found => scanThreadIDs tid xs (i + 1) (if x = tid then some i else found)

/-- Lines 194-205: the table of thread ids after the row, and the row's index. -/
def threadIndex (ids : List Int) (tid : Int) : List Int × Nat :=
  match scanThreadIDs tid ids 0 none with
  | some i => (ids, i)
  | none => (ids ++ [tid], ids.length)

/-- Lines 211-218: pop the entries whose event has ended by `start`; returns the
remaining stack and `prevEventAtLevel`. -/
def popLoop (newData : List Event) (start : Time) :
    List Nat → Option Nat → Option (List Nat × Option Nat)
  | [], prev => some ([], prev)
  | top :: rest, prev =>
    match newData[top]? with
    | none => none
    | some d =>
      if d.EndTime > start then some (top :: rest, prev)
      else popLoop newData start rest (some top)

/-- Lines 221-223: the short-circuit condition of the merge; `some (some p)` is
the merge branch with target `p`, `some none` the append branch. -/
def mergeDecision (canMerge : Event → Event → Time → Bool) (coalesce : Time)
    (newData : List Event) (prev : Option Nat) (evt : Event) : Option (Option Nat) :=
  if coalesce > 0 then
    match prev with
    | none => some none
    | some p =>
      match newData[p]? with
      | none => none
      | some d => if canMerge d evt coalesce then some (some p) else some none
  else some none

/-- The local variables of `LoadEvents` during the pass, with two ghost fields. -/
structure PassState where
  newData : List Event
  newVisibleThreadIDs : List Int
  threadStacks : List (List Nat)
  /-- Ghost: for each entry of `newData`, the top of its thread's stack when it
  was appended (its immediate ancestor), if any. -/
  parent : List (Option Nat)
  /-- Ghost: the targets of the calls of `Merge` (line 226), in order. -/
  mergeLog : List Nat

/-- Lines 155-157: the state before the first row. -/
def initState (nThreads : Nat) : PassState :=
  { newData := [], newVisibleThreadIDs := [],
    threadStacks := List.replicate nThreads [], parent := [], mergeLog := [] }

/-- The index that lines 194-205 give the row. -/
def rowIndex (st : PassState) (r : Row) : Nat :=
  (threadIndex st.newVisibleThreadIDs r.ThreadID).2

/-- The table of thread ids after lines 194-205. -/
def rowIds (st : PassState) (r : Row) : List Int :=
  (threadIndex st.newVisibleThreadIDs r.ThreadID).1

/-- The event `evt` after line 205: scanned columns and thread index. -/
def rowEvent (st : PassState) (r : Row) : Event :=
  { loadRow r with ThreadIndex := (rowIndex st r : Int) }

/-- The event `evt` after line 219, for a stack left with `depth` entries. -/
def placedEvent (st : PassState) (r : Row) (depth : Nat) : Event :=
  { rowEvent st r with Depth := (depth : Int) }

/-- Lines 209-231: the branch of a stack-participating row. -/
def startStep (canMerge : Event → Event → Time → Bool) (coalesce : Time)
    (st : PassState) (r : Row) : Option PassState :=
  match st.threadStacks[rowIndex st r]? with
  | none => none
  | some stack =>
    match popLoop st.newData (rowEvent st r).StartTime stack none with
    | none => none
    | some (stack1, prev) =>
      match mergeDecision canMerge coalesce st.newData prev
          (placedEvent st r stack1.length) with
      | none => none
      | some (some p) =>
        match st.newData[p]? with
        | none => none
        | some d =>
          some { newData := st.newData.set p (Merge d (placedEvent st r stack1.length)),
                 newVisibleThreadIDs := rowIds st r,
                 threadStacks := st.threadStacks.set (rowIndex st r) (p :: stack1),
                 parent := st.parent,
                 mergeLog := st.mergeLog ++ [p] }
      | some none =>
        some { newData := st.newData ++ [placedEvent st r stack1.length],
               newVisibleThreadIDs := rowIds st r,
               threadStacks :=
                 st.threadStacks.set (rowIndex st r) (st.newData.length :: stack1),
               parent := st.parent ++ [stack1.head?],
               mergeLog := st.mergeLog }

/-- Lines 181-234: the body of the row loop. -/
def step (canMerge : Event → Event → Time → Bool) (coalesce : Time)
    (st : PassState) (r : Row) : Option PassState :=
  if (rowEvent st r).StartType = "START" then
    startStep canMerge coalesce st r
  else
    some { newData := st.newData ++ [rowEvent st r],
           newVisibleThreadIDs := rowIds st r,
           threadStacks := st.threadStacks,
           parent := st.parent ++ [none],
           mergeLog := st.mergeLog }

/-- Lines 155-235: the reconstruction pass over the rows of the query. -/
def pass (canMerge : Event → Event → Time → Bool) (coalesce : Time)
    (nThreads : Nat) (rows : List Row) : Option PassState :=
  rows.foldlM (step canMerge coalesce) (initState nThreads)

/-- The fields of the Go struct `Data` that `LoadEvents` reads or writes. -/
structure Data where
  Data : List Event
  VisibleThreadIDs : List Int
  Threads : List String

/-- `Data.LoadEvents`: the object after the call, `none` if the call panics. -/
def LoadEvents (S : ByTypeSort) (canMerge : Event → Event → Time → Bool)
    (coalesce : Time) (self : Data) (rows : List Row) : Option Data :=
  match pass canMerge coalesce self.Threads.length rows with
  | none => none
  | some st =>
    some { self with Data := S.sort st.newData, VisibleThreadIDs := st.newVisibleThreadIDs }

/-- The distinct elements of a list in order of first appearance. -/
def firstSeen (l : List Int) : List Int := l.reverse.dedup.reverse

/-- The thread-label list has a slot for every stack-participating row: the
position of the row's thread id among the distinct thread ids of the stream is
below `len(self.Threads)`. -/
def threadsFit (nThreads : Nat) (rows : List Row) : Prop :=
  ∀ r ∈ rows, r.StartType = "START" →
    List.indexOf r.ThreadID (firstSeen (rows.map (fun x => x.ThreadID))) < nThreads

instance (nThreads : Nat) (rows : List Row) : Decidable (threadsFit nThreads rows) := by
  unfold threadsFit; infer_instance

/-- The shape of one thread's stack (top first) in a state of the pass: every
entry is the position in `newData` of a stack-participating event of that thread,
the entry at height `j` has depth `j`, and the entry below it is its recorded
ancestor. -/
def StackOK (nd : List Event) (par : List (Option Nat)) (ti : Nat) : List Nat → Prop
  | [] => True
  | top :: rest =>
    (∃ e, nd[top]? = some e ∧ e.StartType = "START" ∧ e.ThreadIndex = (ti : Int) ∧
        e.Depth = (rest.length : Int)) ∧
      par[top]? = some rest.head? ∧ StackOK nd par ti rest

/-- The thread table and the thread indices after the rows `pre`. -/
def TableInv (pre : List Row) (st : PassState) : Prop :=
  st.newVisibleThreadIDs = firstSeen (pre.map (fun x => x.ThreadID)) ∧
    ∀ e ∈ st.newData, e.ThreadID ∈ pre.map (fun x => x.ThreadID) ∧
      e.ThreadIndex = (List.indexOf e.ThreadID (firstSeen (pre.map (fun x => x.ThreadID))) : Nat)

/-- The shape of the stacks in a state of the pass. -/
def StackInv (nThreads : Nat) (st : PassState) : Prop :=
  st.threadStacks.length = nThreads ∧ st.parent.length = st.newData.length ∧
    ∀ ti stack, st.threadStacks[ti]? = some stack → StackOK st.newData st.parent ti stack

/-- A comparator for the final sort, used in the examples: a stable sort on the
start type. -/
def sortByStartType : ByTypeSort :=
  { sort := List.insertionSort (fun a b => a.StartType ≤ b.StartType)
    perm := fun l => List.perm_insertionSort _ l }

/-- A row with the given id, thread, extent and start type, for the examples. -/
def exampleRow (id tid : Int) (s e : Time) (ty : String) : Row :=
  { ID := id, ThreadID := tid, StartLocation := "", EndLocation := "",
    StartTime := s, EndTime := e, StartType := ty, EndType := "ENDOK",
    StartText := "", EndText := "" }

/-- An object with three thread labels and no snapshot yet. -/
def exampleData : Data :=
  { Data := [], VisibleThreadIDs := [], Threads := ["a", "b", "c"] }

/-- Two threads and a bookmark: thread 7, thread 9, a bookmark of thread 9, thread 7. -/
def rowsTwoThreads : List Row :=
  [exampleRow 1 7 0 10 "START", exampleRow 2 9 1 3 "START",
   exampleRow 3 9 2 2 "BMARK", exampleRow 4 7 4 5 "START"]

/-- Scenario A: one thread, the intervals `[0,1)`, `[1,2)`, `[2,3)`. -/
def rowsScenarioA : List Row :=
  [exampleRow 1 7 0 1 "START", exampleRow 2 7 1 2 "START", exampleRow 3 7 2 3 "START"]

/-- The test of line 208, negated: the row or event is a bookmark (leaf) entry. -/
def isBookmark (startType : String) : Bool := decide (startType ≠ "START")

/-- Scenario E: a bookmark in the middle of nested intervals of its thread. -/
def rowsScenarioE : List Row :=
  [exampleRow 1 7 0 10 "START", exampleRow 2 7 1 1 "BMARK", exampleRow 3 7 2 4 "START",
   exampleRow 4 7 5 6 "START"]

/-- Lines 209-219 as a function of the state before the row: the depth that the
pass gives a stack-participating row (the size of its thread's stack after the
pop loop). -/
def depthOfRow (st : PassState) (r : Row) : Option Nat :=
  match st.threadStacks[rowIndex st r]? with
  | none => none
  | some stack => (popLoop st.newData r.StartTime stack none).map (fun res => res.1.length)

/-- Lines 121-136 of `Data.OpenFile`: the event list and the thread-label list are
reset to empty lists (the calls of `LoadEvents` and `LoadThreads` are commented
out). -/
def OpenFile (self : Data) : Data :=
  { self with Data := [], Threads := [] }

/-- The row loop of lines 180-235 seen from outside: the object `self` as it is
after each completed iteration (the loop only touches local variables), and the
local state at the end, `none` if an iteration panics. -/
def loopStates (canMerge : Event → Event → Time → Bool) (coalesce : Time) (self : Data) :
    PassState → List Row → List Data × Option PassState
  | st, [] => ([], some st)
  | st, r :: rs =>
    match step canMerge coalesce st r with
    | none => ([], none)
    | some st1 =>
      (self :: (loopStates canMerge coalesce self st1 rs).1,
        (loopStates canMerge coalesce self st1 rs).2)

/-- The successive states of the object during a call of `LoadEvents`: on entry,
after line 151, after line 152, after each loop iteration, after line 240 and
after line 241. -/
def LoadEventsStates (S : ByTypeSort) (canMerge : Event → Event → Time → Bool)
    (coalesce : Time) (self : Data) (rows : List Row) : List Data :=
  let s1 : Data := { self with Data := [] }
  let s2 : Data := { s1 with VisibleThreadIDs := [] }
  let res := loopStates canMerge coalesce s2 (initState self.Threads.length) rows
  [self, s1, s2] ++ res.1 ++
    match res.2 with
    | none => []
    | some st =>
      let s3 : Data := { s2 with Data := S.sort st.newData }
      [s3, { s3 with VisibleThreadIDs := st.newVisibleThreadIDs }]

/-- An object holding a published snapshot of one event. -/
def snapshotData : Data :=
  { Data := [{ NewEvent with ID := 1, ThreadID := 7, StartType := "START" }],
    VisibleThreadIDs := [7], Threads := ["a"] }

/-- Scenarios C and D: the first interval `[0,1)`. -/
def rowC1 : Row := exampleRow 1 7 0 1 "START"

/-- Scenarios C and D: the second interval `[1.05,2)`. -/
def rowC2 : Row := exampleRow 2 7 (21 / 20) 2 "START"

/-- The interval `[1,2)`, which starts exactly where `rowC1` ends. -/
def rowTouching : Row := exampleRow 2 7 1 2 "START"

/-- The order of the query (`ORDER BY start_time ASC, end_time DESC`): ascending
start time, ties by descending end time. -/
def canonicalOrder (rows : List Row) : Prop :=
  rows.Pairwise (fun a b =>
    a.StartTime < b.StartTime ∨ (a.StartTime = b.StartTime ∧ b.EndTime ≤ a.EndTime))

instance (rows : List Row) : Decidable (canonicalOrder rows) := by
  unfold canonicalOrder; infer_instance

/-- The stack-participating rows of each thread are properly nested: a later row of
the same thread starts after the earlier one has ended, or ends within it. -/
def properlyNested (rows : List Row) : Prop :=
  rows.Pairwise (fun a b =>
    a.StartType = "START" → b.StartType = "START" → a.ThreadID = b.ThreadID →
      a.EndTime ≤ b.StartTime ∨ b.EndTime ≤ a.EndTime)

instance (rows : List Row) : Decidable (properlyNested rows) := by
  unfold properlyNested; infer_instance

/-- The number of still-open ancestors of a row: the stack-participating rows of
its thread among the earlier ones whose end time is after the row's start time. -/
def openAncestors (earlier : List Row) (r : Row) : Nat :=
  earlier.countP (fun x =>
    decide (x.StartType = "START" ∧ x.ThreadID = r.ThreadID ∧ r.StartTime < x.EndTime))

/-- The stack entry `i` refers to an event that has ended by `s` (the negation of
the test of line 213). -/
def closedAt (nd : List Event) (s : Time) (i : Nat) : Bool :=
  match nd[i]? with
  | some d => decide (d.EndTime ≤ s)
  | none => false

/-- The event is a stack-participating event of thread index `ti` that is open
after `s`. -/
def openOn (ti : Int) (s : Time) (x : Event) : Bool :=
  decide (x.StartType = "START" ∧ x.ThreadIndex = ti ∧ s < x.EndTime)

/-- Partially overlapping intervals `[0,5)`, `[1,10)` followed by `[6,7)`, in
canonical order. -/
def rowsOverlap : List Row :=
  [exampleRow 1 7 0 5 "START", exampleRow 2 7 1 10 "START", exampleRow 3 7 6 7 "START"]

/-- Scenario B: the nested intervals `[0,10)` and `[2,4)`. -/
def rowsScenarioB : List Row :=
  [exampleRow 1 7 0 10 "START", exampleRow 2 7 2 4 "START"]

/-- Every stack-participating row ends no earlier than it starts (what the query
guarantees for a cutoff that is not negative). -/
def wellFormed (rows : List Row) : Prop :=
  ∀ r ∈ rows, r.StartType = "START" → r.StartTime ≤ r.EndTime

instance (rows : List Row) : Decidable (wellFormed rows) := by
  unfold wellFormed; infer_instance

/-- Properly nested rows in canonical order, the last of which ends before it
starts: `[0,10)`, `[2,4)` and a row from 20 to 3. -/
def rowsBackwards : List Row :=
  [exampleRow 1 7 0 10 "START", exampleRow 2 7 2 4 "START", exampleRow 3 7 20 3 "START"]

/-- The row is a stack-participating row of thread `t`. -/
def selRow (t : Int) (r : Row) : Bool :=
  decide (r.StartType = "START" ∧ r.ThreadID = t)

/-- The event is a stack-participating event of thread `t`. -/
def selEvent (t : Int) (e : Event) : Bool :=
  decide (e.StartType = "START" ∧ e.ThreadID = t)

/-- The event without its thread index. -/
def clearIndex (e : Event) : Event := { e with ThreadIndex := 0 }

/-- The position that entry `i` of `nd` has among the stack-participating events
of thread `t`. -/
def rank (t : Int) (nd : List Event) (i : Nat) : Nat :=
  (nd.take i).countP (selEvent t)

/-- The stack `threadStacks[i]`, empty when there is no such slot. -/
def stackOf (st : PassState) (i : Nat) : List Nat :=
  (st.threadStacks[i]?).getD []

/-- The relation between a state `st` of the pass over a stream and the state `st1`
of the pass over the stack-participating rows of thread `t` alone: the events of
thread `t` agree up to the thread index, and the stack of thread `t` holds the
same events. -/
def Sim (t : Int) (st st1 : PassState) : Prop :=
  (st.newData.filter (selEvent t)).map clearIndex = st1.newData ∧
    stackOf st1 0 =
      (stackOf st (List.indexOf t st.newVisibleThreadIDs)).map (rank t st.newData)

/-- Two threads interleaved with bookmarks; the intervals of thread 7 are nested
and the last two of them can be merged. -/
def rowsInterleaved : List Row :=
  [exampleRow 1 9 0 8 "START", exampleRow 2 7 1 10 "START", exampleRow 3 7 2 2 "BMARK",
   exampleRow 4 7 3 4 "START", exampleRow 5 9 3 5 "START", exampleRow 6 7 5 6 "START"]

/-- Nested intervals with a later sibling on thread 7, and one interval on thread 9. -/
def rowsNested : List Row :=
  [exampleRow 1 7 0 10 "START", exampleRow 2 7 2 4 "START", exampleRow 3 9 3 5 "START",
   exampleRow 4 7 5 6 "START"]

/-! ## Basic facts -/

theorem firstSeen_nil : firstSeen [] = [] := rfl

theorem mem_firstSeen {x : Int} {l : List Int} : x ∈ firstSeen l ↔ x ∈ l := by
  simp [firstSeen]

theorem nodup_firstSeen (l : List Int) : (firstSeen l).Nodup := by
  simp [firstSeen, List.nodup_reverse, List.nodup_dedup]

theorem firstSeen_snoc (l : List Int) (x : Int) :
    firstSeen (l ++ [x]) = if x ∈ l then firstSeen l else firstSeen l ++ [x] := by
  unfold firstSeen
  by_cases h : x ∈ l
  · have h1 : x ∈ l.reverse := by simpa using h
    simp [h, List.dedup_cons_of_mem h1]
  · have h1 : x ∉ l.reverse := by simpa using h
    simp [h, List.dedup_cons_of_not_mem h1]

theorem scanThreadIDs_eq (tid : Int) :
    ∀ (l : List Int) (i : Nat) (found : Option Nat), l.Nodup →
      scanThreadIDs tid l i found =
        if tid ∈ l then some (i + List.indexOf tid l) else found
  | [], _, _, _ => by simp [scanThreadIDs]
  | x :: xs, i, found, h => by
    have hx : x ∉ xs := (List.nodup_cons.mp h).1
    have hxs : xs.Nodup := (List.nodup_cons.mp h).2
    rw [scanThreadIDs, scanThreadIDs_eq tid xs (i + 1) _ hxs]
    by_cases hxt : x = tid
    · subst hxt
      simp [hx]
    · have hne : tid ≠ x := fun h => hxt h.symm
      by_cases hm : tid ∈ xs
      · simp [hm, hxt, List.indexOf_cons_ne _ hxt]
        omega
      · simp [hm, hxt, hne]

theorem threadIndex_eq (ids : List Int) (tid : Int) (h : ids.Nodup) :
    threadIndex ids tid =
      if tid ∈ ids then (ids, List.indexOf tid ids) else (ids ++ [tid], ids.length) := by
  unfold threadIndex
  rw [scanThreadIDs_eq tid ids 0 none h]
  by_cases hm : tid ∈ ids <;> simp [hm]

theorem threadIndex_firstSeen (l : List Int) (tid : Int) :
    threadIndex (firstSeen l) tid =
      (firstSeen (l ++ [tid]), List.indexOf tid (firstSeen (l ++ [tid]))) := by
  rw [threadIndex_eq _ _ (nodup_firstSeen l), firstSeen_snoc]
  by_cases hm : tid ∈ l
  · simp [hm, mem_firstSeen]
  · have hm1 : tid ∉ firstSeen l := fun h => hm (mem_firstSeen.mp h)
    simp [hm, mem_firstSeen, List.indexOf_append_of_not_mem hm1]

theorem indexOf_firstSeen_snoc {l : List Int} {x : Int} (tid : Int) (h : x ∈ l) :
    List.indexOf x (firstSeen (l ++ [tid])) = List.indexOf x (firstSeen l) := by
  rw [firstSeen_snoc]
  split
  · rfl
  · exact List.indexOf_append_of_mem (mem_firstSeen.mpr h)

theorem pass_nil (canMerge : Event → Event → Time → Bool) (coalesce : Time) (n : Nat) :
    pass canMerge coalesce n [] = some (initState n) := rfl

theorem pass_snoc (canMerge : Event → Event → Time → Bool) (coalesce : Time) (n : Nat)
    (pre : List Row) (r : Row) :
    pass canMerge coalesce n (pre ++ [r]) =
      (pass canMerge coalesce n pre).bind (fun st => step canMerge coalesce st r) := by
  unfold pass
  rw [List.foldlM_append]
  cases List.foldlM (step canMerge coalesce) (initState n) pre <;> simp [List.foldlM]

/-- Induction along the pass: a property of (rows consumed, state) that holds
initially and is kept by every successful loop iteration holds whenever the
pass completes. -/
theorem pass_induction (canMerge : Event → Event → Time → Bool) (coalesce : Time) (n : Nat)
    (P : List Row → PassState → Prop)
    (h0 : P [] (initState n))
    (hstep : ∀ pre st r st1, pass canMerge coalesce n pre = some st → P pre st →
      step canMerge coalesce st r = some st1 → P (pre ++ [r]) st1) :
    ∀ rows st, pass canMerge coalesce n rows = some st → P rows st := by
  intro rows
  induction rows using List.reverseRecOn with
  | nil =>
    intro st h
    rw [pass_nil] at h
    cases h
    exact h0
  | append_singleton pre r ih =>
    intro st h
    rw [pass_snoc] at h
    cases hp : pass canMerge coalesce n pre with
    | none => simp [hp] at h
    | some st0 =>
      rw [hp] at h
      exact hstep pre st0 r st hp (ih st0 hp) h

/-! ## The loop body, case by case -/

theorem popLoop_spec (nd : List Event) (t : Time) :
    ∀ (stack : List Nat) (prev : Option Nat) (stack1 : List Nat) (prev1 : Option Nat),
      popLoop nd t stack prev = some (stack1, prev1) →
      ∃ popped, stack = popped ++ stack1 ∧
        (∀ i ∈ popped, ∃ d, nd[i]? = some d ∧ d.EndTime ≤ t) ∧
        (∀ top ∈ stack1.head?, ∃ d, nd[top]? = some d ∧ t < d.EndTime) ∧
        prev1 = (if popped = [] then prev else popped.getLast?)
  | [], prev, stack1, prev1, h => by
    simp only [popLoop, Option.some.injEq, Prod.mk.injEq] at h
    obtain ⟨h1, h2⟩ := h
    subst h1 h2
    exact ⟨[], by simp⟩
  | top :: rest, prev, stack1, prev1, h => by
    rw [popLoop] at h
    cases hd : nd[top]? with
    | none => simp [hd] at h
    | some d =>
      simp only [hd] at h
      by_cases hopen : d.EndTime > t
      · simp only [hopen, if_true, Option.some.injEq, Prod.mk.injEq] at h
        obtain ⟨h1, h2⟩ := h
        subst h1 h2
        exact ⟨[], by simp, by simp, by simpa [hd] using hopen, by simp⟩
      · simp only [hopen, if_false] at h
        obtain ⟨popped, h1, h2, h3, h4⟩ := popLoop_spec nd t rest (some top) stack1 prev1 h
        refine ⟨top :: popped, by simp [h1], ?_, h3, ?_⟩
        · intro i hi
          rcases List.mem_cons.mp hi with rfl | hi
          · exact ⟨d, hd, not_lt.mp hopen⟩
          · exact h2 i hi
        · rw [h4]
          cases popped with
          | nil => simp
          | cons a l => simp [List.getLast?_cons_cons]

theorem mergeDecision_merge {canMerge : Event → Event → Time → Bool} {coalesce : Time}
    {nd : List Event} {prev : Option Nat} {evt : Event} {p : Nat}
    (h : mergeDecision canMerge coalesce nd prev evt = some (some p)) :
    0 < coalesce ∧ prev = some p ∧ ∃ d, nd[p]? = some d ∧ canMerge d evt coalesce = true := by
  unfold mergeDecision at h
  by_cases hc : coalesce > 0
  · simp only [hc, if_true] at h
    cases prev with
    | none => simp at h
    | some q =>
      simp only at h
      cases hd : nd[q]? with
      | none => simp [hd] at h
      | some d =>
        simp only [hd] at h
        by_cases hm : canMerge d evt coalesce = true
        · simp only [hm, if_true, Option.some.injEq] at h
          subst h
          exact ⟨hc, rfl, d, hd, hm⟩
        · simp [hm] at h
  · simp [hc] at h

theorem mergeDecision_of_le {canMerge : Event → Event → Time → Bool} {coalesce : Time}
    (nd : List Event) (prev : Option Nat) (evt : Event) (h : coalesce ≤ 0) :
    mergeDecision canMerge coalesce nd prev evt = some none := by
  unfold mergeDecision
  simp [not_lt.mpr h]

/-- The three ways an iteration of the row loop completes: a bookmark row is
appended; a stack-participating row is appended and pushed; a stack-participating
row is merged into the last popped event. -/
theorem step_cases {canMerge : Event → Event → Time → Bool} {coalesce : Time}
    {st st1 : PassState} {r : Row} (h : step canMerge coalesce st r = some st1) :
    (r.StartType ≠ "START" ∧
      st1 = { newData := st.newData ++ [rowEvent st r],
              newVisibleThreadIDs := rowIds st r,
              threadStacks := st.threadStacks,
              parent := st.parent ++ [none],
              mergeLog := st.mergeLog }) ∨
    (r.StartType = "START" ∧ ∃ stack stack1 prev,
      st.threadStacks[rowIndex st r]? = some stack ∧
      popLoop st.newData r.StartTime stack none = some (stack1, prev) ∧
      ((mergeDecision canMerge coalesce st.newData prev (placedEvent st r stack1.length)
            = some none ∧
          st1 = { newData := st.newData ++ [placedEvent st r stack1.length],
                  newVisibleThreadIDs := rowIds st r,
                  threadStacks :=
                    st.threadStacks.set (rowIndex st r) (st.newData.length :: stack1),
                  parent := st.parent ++ [stack1.head?],
                  mergeLog := st.mergeLog }) ∨
       (∃ p d,
          mergeDecision canMerge coalesce st.newData prev (placedEvent st r stack1.length)
            = some (some p) ∧
          st.newData[p]? = some d ∧
          st1 = { newData := st.newData.set p (Merge d (placedEvent st r stack1.length)),
                  newVisibleThreadIDs := rowIds st r,
                  threadStacks := st.threadStacks.set (rowIndex st r) (p :: stack1),
                  parent := st.parent,
                  mergeLog := st.mergeLog ++ [p] }))) := by
  unfold step at h
  have hty : (rowEvent st r).StartType = r.StartType := rfl
  have htm : (rowEvent st r).StartTime = r.StartTime := rfl
  rw [hty] at h
  by_cases hs : r.StartType = "START"
  · right
    refine ⟨hs, ?_⟩
    rw [if_pos hs] at h
    unfold startStep at h
    rw [htm] at h
    cases hstack : st.threadStacks[rowIndex st r]? with
    | none => simp [hstack] at h
    | some stack =>
      simp only [hstack] at h
      cases hpop : popLoop st.newData r.StartTime stack none with
      | none => simp [hpop] at h
      | some res =>
        obtain ⟨stack1, prev⟩ := res
        simp only [hpop] at h
        refine ⟨stack, stack1, prev, rfl, hpop, ?_⟩
        cases hmd : mergeDecision canMerge coalesce st.newData prev
            (placedEvent st r stack1.length) with
        | none => simp [hmd] at h
        | some dec =>
          simp only [hmd] at h
          cases dec with
          | none =>
            left
            simp only [Option.some.injEq] at h
            exact ⟨rfl, h.symm⟩
          | some p =>
            right
            simp only at h
            cases hd : st.newData[p]? with
            | none => simp [hd] at h
            | some d =>
              simp only [hd, Option.some.injEq] at h
              exact ⟨p, d, rfl, hd, h.symm⟩
  · left
    refine ⟨hs, ?_⟩
    rw [if_neg hs] at h
    simp only [Option.some.injEq] at h
    exact h.symm

/-! ## The thread table -/

theorem rowIds_eq {pre : List Row} {st : PassState} (r : Row) (h : TableInv pre st) :
    rowIds st r = firstSeen ((pre ++ [r]).map (fun x => x.ThreadID)) := by
  unfold rowIds
  rw [h.1, threadIndex_firstSeen]
  simp

theorem rowIndex_eq {pre : List Row} {st : PassState} (r : Row) (h : TableInv pre st) :
    rowIndex st r =
      List.indexOf r.ThreadID (firstSeen ((pre ++ [r]).map (fun x => x.ThreadID))) := by
  unfold rowIndex
  rw [h.1, threadIndex_firstSeen]
  simp

theorem Merge_ThreadID (d e : Event) : (Merge d e).ThreadID = d.ThreadID := rfl

theorem Merge_ThreadIndex (d e : Event) : (Merge d e).ThreadIndex = d.ThreadIndex := rfl

theorem Merge_Depth (d e : Event) : (Merge d e).Depth = d.Depth := rfl

theorem Merge_StartType (d e : Event) : (Merge d e).StartType = d.StartType := rfl

theorem Merge_EndTime (d e : Event) : (Merge d e).EndTime = e.EndTime := rfl

theorem tableInv_init (n : Nat) : TableInv [] (initState n) := by
  constructor
  · rfl
  · intro e he
    simp [initState] at he

theorem tableInv_step {canMerge : Event → Event → Time → Bool} {coalesce : Time}
    {pre : List Row} {st st1 : PassState} {r : Row}
    (hinv : TableInv pre st) (h : step canMerge coalesce st r = some st1) :
    TableInv (pre ++ [r]) st1 := by
  have hold : ∀ e ∈ st.newData, e.ThreadID ∈ (pre ++ [r]).map (fun x => x.ThreadID) ∧
      e.ThreadIndex =
        (List.indexOf e.ThreadID (firstSeen ((pre ++ [r]).map (fun x => x.ThreadID))) : Nat) := by
    intro e he
    obtain ⟨h1, h2⟩ := hinv.2 e he
    refine ⟨by simp only [List.map_append, List.mem_append]; exact Or.inl h1, ?_⟩
    rw [h2, List.map_append]
    simp only [List.map_cons, List.map_nil]
    rw [indexOf_firstSeen_snoc _ h1]
  have hnew : ∀ k : Nat, (placedEvent st r k).ThreadID ∈ (pre ++ [r]).map (fun x => x.ThreadID) ∧
      (placedEvent st r k).ThreadIndex =
        (List.indexOf (placedEvent st r k).ThreadID
          (firstSeen ((pre ++ [r]).map (fun x => x.ThreadID))) : Nat) := by
    intro k
    refine ⟨by simp [placedEvent, rowEvent, loadRow], ?_⟩
    show ((rowIndex st r : Nat) : Int) = _
    rw [rowIndex_eq r hinv]
    rfl
  rcases step_cases h with ⟨_, hst⟩ | ⟨_, stack, stack1, prev, _, _, ⟨_, hst⟩ | ⟨p, d, _, hd, hst⟩⟩
  · subst hst
    refine ⟨rowIds_eq r hinv, ?_⟩
    intro e he
    rcases List.mem_append.mp he with he | he
    · exact hold e he
    · rw [List.mem_singleton] at he
      subst he
      exact hnew 0
  · subst hst
    refine ⟨rowIds_eq r hinv, ?_⟩
    intro e he
    rcases List.mem_append.mp he with he | he
    · exact hold e he
    · rw [List.mem_singleton] at he
      subst he
      exact hnew _
  · subst hst
    refine ⟨rowIds_eq r hinv, ?_⟩
    intro e he
    rcases List.mem_or_eq_of_mem_set he with he | he
    · exact hold e he
    · subst he
      rw [Merge_ThreadID, Merge_ThreadIndex]
      exact hold d (List.getElem?_mem hd)

theorem tableInv_pass (canMerge : Event → Event → Time → Bool) (coalesce : Time) (n : Nat) :
    ∀ rows st, pass canMerge coalesce n rows = some st → TableInv rows st :=
  pass_induction canMerge coalesce n TableInv (tableInv_init n)
    (fun _ _ _ _ _ hP hs => tableInv_step hP hs)

/-! ## The shape of the stacks -/

theorem stackOK_suffix {nd : List Event} {par : List (Option Nat)} {ti : Nat} :
    ∀ (a b : List Nat), StackOK nd par ti (a ++ b) → StackOK nd par ti b
  | [], _, h => h
  | _ :: a, b, h => stackOK_suffix a b h.2.2

theorem stackOK_mem {nd : List Event} {par : List (Option Nat)} {ti : Nat} :
    ∀ (s : List Nat), StackOK nd par ti s → ∀ i ∈ s,
      ∃ e, nd[i]? = some e ∧ e.StartType = "START" ∧ e.ThreadIndex = (ti : Int)
  | [], _, i, hi => by simp at hi
  | top :: rest, h, i, hi => by
    rcases List.mem_cons.mp hi with rfl | hi
    · obtain ⟨e, h1, h2, h3, _⟩ := h.1
      exact ⟨e, h1, h2, h3⟩
    · exact stackOK_mem rest h.2.2 i hi

theorem stackOK_mono {nd nd1 : List Event} {par par1 : List (Option Nat)} {ti : Nat}
    (hnd : ∀ (i : Nat) (e : Event), nd[i]? = some e → ∃ e1 : Event, nd1[i]? = some e1 ∧ e1.StartType = e.StartType ∧
      e1.ThreadIndex = e.ThreadIndex ∧ e1.Depth = e.Depth)
    (hpar : ∀ (i : Nat) (x : Option Nat), par[i]? = some x → par1[i]? = some x) :
    ∀ (s : List Nat), StackOK nd par ti s → StackOK nd1 par1 ti s
  | [], _ => trivial
  | top :: rest, h => by
    obtain ⟨⟨e, h1, h2, h3, h4⟩, h5, h6⟩ := h
    obtain ⟨e1, g1, g2, g3, g4⟩ := hnd top e h1
    exact ⟨⟨e1, g1, g2.trans h2, g3.trans h3, g4.trans h4⟩, hpar _ _ h5,
      stackOK_mono hnd hpar rest h6⟩

theorem getElem?_append_some {α : Type} {l : List α} {i : Nat} {x : α} (l1 : List α)
    (h : l[i]? = some x) : (l ++ l1)[i]? = some x := by
  have hi : i < l.length := (List.getElem?_eq_some.mp h).1
  rw [List.getElem?_append_left hi]
  exact h

theorem getElem?_snoc_length {α : Type} (l : List α) (x : α) :
    (l ++ [x])[l.length]? = some x := by
  simp

theorem append_keeps (nd : List Event) (x : Event) :
    ∀ (i : Nat) (e : Event), nd[i]? = some e → ∃ e1 : Event, (nd ++ [x])[i]? = some e1 ∧ e1.StartType = e.StartType ∧
      e1.ThreadIndex = e.ThreadIndex ∧ e1.Depth = e.Depth :=
  fun _ e h => ⟨e, getElem?_append_some [x] h, rfl, rfl, rfl⟩

theorem merge_keeps {nd : List Event} {p : Nat} {d : Event} (x : Event)
    (hd : nd[p]? = some d) :
    ∀ (i : Nat) (e : Event), nd[i]? = some e → ∃ e1 : Event, (nd.set p (Merge d x))[i]? = some e1 ∧
      e1.StartType = e.StartType ∧ e1.ThreadIndex = e.ThreadIndex ∧ e1.Depth = e.Depth := by
  intro i e h
  have hp : p < nd.length := (List.getElem?_eq_some.mp hd).1
  by_cases hip : p = i
  · subst hip
    rw [hd] at h
    cases h
    exact ⟨Merge d x, by simp [List.getElem?_set, hp], rfl, rfl, rfl⟩
  · exact ⟨e, by simp [List.getElem?_set, hip, h], rfl, rfl, rfl⟩

theorem stackInv_init (n : Nat) : StackInv n (initState n) := by
  refine ⟨by simp [initState], rfl, ?_⟩
  intro ti stack h
  have : stack ∈ List.replicate n ([] : List Nat) := List.getElem?_mem h
  rw [List.eq_of_mem_replicate this]
  trivial

theorem threadStacks_set_cases {stks : List (List Nat)} {ti tj : Nat} {s s1 : List Nat}
    (h : (stks.set ti s)[tj]? = some s1) :
    (tj = ti ∧ s1 = s) ∨ (tj ≠ ti ∧ stks[tj]? = some s1) := by
  rw [List.getElem?_set] at h
  by_cases hij : ti = tj
  · simp only [hij, if_true] at h
    split at h
    · exact Or.inl ⟨hij.symm, by cases h; rfl⟩
    · cases h
  · simp only [hij, if_false] at h
    exact Or.inr ⟨fun e => hij e.symm, h⟩

theorem stackInv_step {canMerge : Event → Event → Time → Bool} {coalesce : Time} {n : Nat}
    {st st1 : PassState} {r : Row}
    (hinv : StackInv n st) (h : step canMerge coalesce st r = some st1) :
    StackInv n st1 := by
  obtain ⟨hlen, hpar, hst⟩ := hinv
  rcases step_cases h with ⟨_, e⟩ | ⟨hs, stack, stack1, prev, hstack, hpop, ⟨_, e⟩ | ⟨p, d, _, hd, e⟩⟩
  · subst e
    refine ⟨hlen, by simp [hpar], ?_⟩
    intro ti s hs
    exact stackOK_mono (append_keeps _ _) (fun i x hx => getElem?_append_some _ hx) s
      (hst ti s hs)
  · subst e
    obtain ⟨popped, hsplit, _, _, _⟩ := popLoop_spec _ _ _ _ _ _ hpop
    refine ⟨by simp [hlen], by simp [hpar], ?_⟩
    intro tj s hs1
    have hmono : ∀ s, StackOK st.newData st.parent tj s →
        StackOK (st.newData ++ [placedEvent st r stack1.length])
          (st.parent ++ [stack1.head?]) tj s :=
      stackOK_mono (append_keeps _ _) (fun i x hx => getElem?_append_some _ hx)
    rcases threadStacks_set_cases hs1 with ⟨rfl, rfl⟩ | ⟨_, hold⟩
    · refine ⟨⟨placedEvent st r stack1.length, getElem?_snoc_length _ _, hs, rfl, rfl⟩, ?_, ?_⟩
      · rw [← hpar]
        exact getElem?_snoc_length _ _
      · apply hmono
        have := hst _ stack hstack
        rw [hsplit] at this
        exact stackOK_suffix _ _ this
    · exact hmono s (hst tj s hold)
  · subst e
    obtain ⟨popped, hsplit, _, _, hprev⟩ := popLoop_spec _ _ _ _ _ _ hpop
    refine ⟨by simp [hlen], by simp [hpar], ?_⟩
    intro tj s hs1
    have hmono : ∀ s, StackOK st.newData st.parent tj s →
        StackOK (st.newData.set p (Merge d (placedEvent st r stack1.length))) st.parent tj s :=
      stackOK_mono (merge_keeps _ hd) (fun i x hx => hx)
    rcases threadStacks_set_cases hs1 with ⟨rfl, rfl⟩ | ⟨_, hold⟩
    · apply hmono
      obtain ⟨_, hprev1, _⟩ := mergeDecision_merge (by assumption)
      have hne : popped ≠ [] := by
        intro hnil
        rw [hnil] at hprev
        simp only [if_true] at hprev
        rw [hprev] at hprev1
        cases hprev1
      rw [if_neg hne] at hprev
      rw [hprev1] at hprev
      have hpp : popped = popped.dropLast ++ [p] := by
        have := List.dropLast_append_getLast? p (by rw [← hprev]; rfl)
        exact this.symm
      have := hst _ stack hstack
      rw [hsplit, hpp, List.append_assoc] at this
      exact stackOK_suffix _ _ this
    · exact hmono s (hst tj s hold)

theorem stackInv_pass (canMerge : Event → Event → Time → Bool) (coalesce : Time) (n : Nat) :
    ∀ rows st, pass canMerge coalesce n rows = some st → StackInv n st :=
  pass_induction canMerge coalesce n (fun _ st => StackInv n st) (stackInv_init n)
    (fun _ _ _ _ _ hP hs => stackInv_step hP hs)

/-! ## Completion of the pass -/

theorem popLoop_isSome (nd : List Event) (t : Time) :
    ∀ (stack : List Nat) (prev : Option Nat), (∀ i ∈ stack, ∃ e : Event, nd[i]? = some e) →
      ∃ res, popLoop nd t stack prev = some res
  | [], prev, _ => ⟨([], prev), rfl⟩
  | top :: rest, prev, h => by
    obtain ⟨e, he⟩ := h top (List.mem_cons_self _ _)
    rw [popLoop]
    simp only [he]
    by_cases hopen : e.EndTime > t
    · exact ⟨(top :: rest, prev), by simp [hopen]⟩
    · simp only [hopen, if_false]
      exact popLoop_isSome nd t rest (some top)
        (fun i hi => h i (List.mem_cons_of_mem _ hi))

theorem popLoop_prev_mem {nd : List Event} {t : Time} {stack stack1 : List Nat} {p : Nat}
    (h : popLoop nd t stack none = some (stack1, some p)) : p ∈ stack := by
  obtain ⟨popped, hsplit, _, _, hprev⟩ := popLoop_spec _ _ _ _ _ _ h
  by_cases hne : popped = []
  · simp [hne] at hprev
  · rw [if_neg hne] at hprev
    rw [hsplit]
    exact List.mem_append_left _ (List.mem_of_getLast?_eq_some hprev.symm)

theorem mergeDecision_isSome (canMerge : Event → Event → Time → Bool) (coalesce : Time)
    (nd : List Event) (prev : Option Nat) (evt : Event)
    (h : ∀ p, prev = some p → ∃ e : Event, nd[p]? = some e) :
    ∃ dec, mergeDecision canMerge coalesce nd prev evt = some dec := by
  unfold mergeDecision
  by_cases hc : coalesce > 0
  · simp only [hc, if_true]
    cases prev with
    | none => exact ⟨_, rfl⟩
    | some p =>
      obtain ⟨e, he⟩ := h p rfl
      simp only [he]
      by_cases hm : canMerge e evt coalesce = true
      · exact ⟨some p, by simp [hm]⟩
      · exact ⟨none, by simp [hm]⟩
  · exact ⟨none, by simp [hc]⟩

theorem step_isSome (canMerge : Event → Event → Time → Bool) (coalesce : Time) {n : Nat}
    {st : PassState} (r : Row) (hinv : StackInv n st)
    (hfit : r.StartType = "START" → rowIndex st r < n) :
    ∃ st1, step canMerge coalesce st r = some st1 := by
  unfold step
  have hty : (rowEvent st r).StartType = r.StartType := rfl
  rw [hty]
  by_cases hs : r.StartType = "START"
  · rw [if_pos hs]
    unfold startStep
    obtain ⟨hlen, _, hst⟩ := hinv
    have hlt : rowIndex st r < st.threadStacks.length := by rw [hlen]; exact hfit hs
    have hstack : st.threadStacks[rowIndex st r]? = some (st.threadStacks[rowIndex st r]) :=
      List.getElem?_eq_getElem hlt
    simp only [hstack]
    have hok := hst _ _ hstack
    have hvalid : ∀ i ∈ st.threadStacks[rowIndex st r], ∃ e : Event, st.newData[i]? = some e :=
      fun i hi => by
        obtain ⟨e, he, _⟩ := stackOK_mem _ hok i hi
        exact ⟨e, he⟩
    obtain ⟨⟨stack1, prev⟩, hpop⟩ :=
      popLoop_isSome st.newData (rowEvent st r).StartTime _ none hvalid
    simp only [hpop]
    have hprev : ∀ p, prev = some p → ∃ e : Event, st.newData[p]? = some e := by
      intro p hp
      subst hp
      exact hvalid p (popLoop_prev_mem hpop)
    obtain ⟨dec, hdec⟩ := mergeDecision_isSome canMerge coalesce st.newData prev
      (placedEvent st r stack1.length) hprev
    simp only [hdec]
    cases dec with
    | none => exact ⟨_, rfl⟩
    | some p =>
      obtain ⟨_, hp, _⟩ := mergeDecision_merge hdec
      obtain ⟨e, he⟩ := hprev p hp
      simp only [he]
      exact ⟨_, rfl⟩
  · rw [if_neg hs]
    exact ⟨_, rfl⟩

theorem threadsFit_of_snoc {n : Nat} {pre : List Row} {r : Row}
    (h : threadsFit n (pre ++ [r])) : threadsFit n pre := by
  intro x hx hs
  have := h x (List.mem_append_left _ hx) hs
  rw [List.map_append] at this
  simp only [List.map_cons, List.map_nil] at this
  rwa [indexOf_firstSeen_snoc _ (List.mem_map_of_mem _ hx)] at this

/-- The pass runs to completion when the thread-label list has a slot for every
stack-participating row. -/
theorem pass_isSome (canMerge : Event → Event → Time → Bool) (coalesce : Time) (n : Nat) :
    ∀ rows, threadsFit n rows → ∃ st, pass canMerge coalesce n rows = some st := by
  intro rows
  induction rows using List.reverseRecOn with
  | nil => exact fun _ => ⟨_, pass_nil _ _ _⟩
  | append_singleton pre r ih =>
    intro hfit
    obtain ⟨st, hst⟩ := ih (threadsFit_of_snoc hfit)
    have htab := tableInv_pass _ _ _ _ _ hst
    have hstk := stackInv_pass _ _ _ _ _ hst
    obtain ⟨st1, h1⟩ := step_isSome canMerge coalesce r hstk (by
      intro hs
      rw [rowIndex_eq r htab]
      exact hfit r (by simp) hs)
    exact ⟨st1, by rw [pass_snoc, hst]; exact h1⟩

/-- Conversely a completed pass never indexed `threadStacks` out of range. -/
theorem threadsFit_of_pass (canMerge : Event → Event → Time → Bool) (coalesce : Time)
    (n : Nat) : ∀ rows st, pass canMerge coalesce n rows = some st → threadsFit n rows := by
  refine pass_induction canMerge coalesce n (fun rows _ => threadsFit n rows) ?_ ?_
  · intro r hr
    simp at hr
  · intro pre st r st1 hpass hfit hstep x hx hs
    have htab := tableInv_pass _ _ _ _ _ hpass
    have hstk := stackInv_pass _ _ _ _ _ hpass
    rcases List.mem_append.mp hx with hx | hx
    · have := hfit x hx hs
      rw [List.map_append]
      simp only [List.map_cons, List.map_nil]
      rwa [indexOf_firstSeen_snoc _ (List.mem_map_of_mem _ hx)]
    · rw [List.mem_singleton] at hx
      subst hx
      rcases step_cases hstep with ⟨hns, _⟩ | ⟨_, stack, _, _, hstack, _⟩
      · exact absurd hs hns
      · rw [← rowIndex_eq x htab, ← hstk.1]
        exact (List.getElem?_eq_some.mp hstack).1

/-! ## Thread indexing -/

theorem indexOf_snoc (l : List Int) (x a : Int) :
    List.indexOf a (l ++ [x]) =
      if a ∈ l then List.indexOf a l else if a = x then l.length else l.length + 1 := by
  by_cases ha : a ∈ l
  · simp [ha, List.indexOf_append_of_mem ha]
  · rw [List.indexOf_append_of_not_mem ha]
    by_cases hax : a = x
    · subst hax
      simp [ha]
    · have : x ≠ a := fun h => hax h.symm
      simp [ha, hax, List.indexOf_cons_ne _ this]

theorem firstSeen_order (l : List Int) :
    ∀ a b, a ∈ l → b ∈ l →
      (List.indexOf a (firstSeen l) < List.indexOf b (firstSeen l) ↔
        List.indexOf a l < List.indexOf b l) := by
  induction l using List.reverseRecOn with
  | nil => intro a b ha; simp at ha
  | append_singleton l x ih =>
    intro a b ha hb
    rw [firstSeen_snoc]
    by_cases hx : x ∈ l
    · have ha1 : a ∈ l := by
        rcases List.mem_append.mp ha with h | h
        · exact h
        · rw [List.mem_singleton] at h; rw [h]; exact hx
      have hb1 : b ∈ l := by
        rcases List.mem_append.mp hb with h | h
        · exact h
        · rw [List.mem_singleton] at h; rw [h]; exact hx
      rw [if_pos hx, List.indexOf_append_of_mem ha1, List.indexOf_append_of_mem hb1]
      exact ih a b ha1 hb1
    · rw [if_neg hx, indexOf_snoc, indexOf_snoc, indexOf_snoc l, indexOf_snoc l]
      simp only [mem_firstSeen]
      have hlen : ∀ c, c ∈ l → List.indexOf c l < l.length ∧
          List.indexOf c (firstSeen l) < (firstSeen l).length :=
        fun c hc => ⟨List.indexOf_lt_length.mpr hc,
          List.indexOf_lt_length.mpr (mem_firstSeen.mpr hc)⟩
      by_cases ha1 : a ∈ l <;> by_cases hb1 : b ∈ l
      · simp only [ha1, hb1, if_true]
        exact ih a b ha1 hb1
      · have hbx : b = x := by
          rcases List.mem_append.mp hb with h | h
          · exact absurd h hb1
          · exact List.mem_singleton.mp h
        simp only [ha1, hb1, hbx, hx, if_true, if_false]
        have := hlen a ha1
        constructor <;> intro _ <;> omega
      · have hax : a = x := by
          rcases List.mem_append.mp ha with h | h
          · exact absurd h ha1
          · exact List.mem_singleton.mp h
        simp only [ha1, hb1, hax, hx, if_true, if_false]
        have := hlen b hb1
        constructor <;> intro _ <;> omega
      · have hax : a = x := by
          rcases List.mem_append.mp ha with h | h
          · exact absurd h ha1
          · exact List.mem_singleton.mp h
        have hbx : b = x := by
          rcases List.mem_append.mp hb with h | h
          · exact absurd h hb1
          · exact List.mem_singleton.mp h
        simp only [ha1, hb1, hax, hbx, hx, if_true, if_false]
        constructor <;> intro _ <;> omega

theorem LoadEvents_eq_some {S : ByTypeSort} {canMerge : Event → Event → Time → Bool}
    {coalesce : Time} {self : Data} {rows : List Row} {st : PassState}
    (h : pass canMerge coalesce self.Threads.length rows = some st) :
    LoadEvents S canMerge coalesce self rows =
      some { self with Data := S.sort st.newData, VisibleThreadIDs := st.newVisibleThreadIDs } := by
  unfold LoadEvents
  rw [h]

/-- C1: the published thread-id table is the list of distinct thread ids of the
rows in order of first appearance, without duplicates, and the thread index of
every published event, stack-participating or bookmark, is the position of the
first (and only) occurrence of its thread id in that table. -/
theorem C1_thread_indexing (S : ByTypeSort) (canMerge : Event → Event → Time → Bool)
    (coalesce : Time) (self : Data) (rows : List Row)
    (hfit : threadsFit self.Threads.length rows) :
    ∃ out, LoadEvents S canMerge coalesce self rows = some out ∧
      out.VisibleThreadIDs = firstSeen (rows.map (fun r => r.ThreadID)) ∧
      out.VisibleThreadIDs.Nodup ∧
      (∀ t, t ∈ out.VisibleThreadIDs ↔ ∃ r ∈ rows, r.ThreadID = t) ∧
      (∀ a ∈ out.VisibleThreadIDs, ∀ b ∈ out.VisibleThreadIDs,
        (List.indexOf a out.VisibleThreadIDs < List.indexOf b out.VisibleThreadIDs ↔
          List.indexOf a (rows.map (fun r => r.ThreadID)) <
            List.indexOf b (rows.map (fun r => r.ThreadID)))) ∧
      ∀ e ∈ out.Data,
        e.ThreadIndex = (List.indexOf e.ThreadID out.VisibleThreadIDs : Nat) ∧
        out.VisibleThreadIDs[List.indexOf e.ThreadID out.VisibleThreadIDs]? = some e.ThreadID := by
  obtain ⟨st, hst⟩ := pass_isSome canMerge coalesce _ rows hfit
  obtain ⟨htab, hev⟩ := tableInv_pass _ _ _ _ _ hst
  refine ⟨_, LoadEvents_eq_some hst, htab, ?_, ?_, ?_, ?_⟩
  · show st.newVisibleThreadIDs.Nodup
    rw [htab]
    exact nodup_firstSeen _
  · intro t
    show t ∈ st.newVisibleThreadIDs ↔ _
    rw [htab, mem_firstSeen]
    simp
  · intro a ha b hb
    have ha1 : a ∈ st.newVisibleThreadIDs := ha
    have hb1 : b ∈ st.newVisibleThreadIDs := hb
    rw [htab, mem_firstSeen] at ha1 hb1
    show List.indexOf a st.newVisibleThreadIDs < List.indexOf b st.newVisibleThreadIDs ↔ _
    rw [htab]
    exact firstSeen_order _ a b ha1 hb1
  · intro e he
    have he1 : e ∈ st.newData := (S.perm st.newData).mem_iff.mp he
    obtain ⟨h1, h2⟩ := hev e he1
    show e.ThreadIndex = (List.indexOf e.ThreadID st.newVisibleThreadIDs : Nat) ∧
      st.newVisibleThreadIDs[List.indexOf e.ThreadID st.newVisibleThreadIDs]? = some e.ThreadID
    rw [htab]
    exact ⟨h2, List.getElem?_indexOf (mem_firstSeen.mpr h1)⟩

/-- C1 on a stream with two threads and a bookmark: the table is `[7, 9]` and the
thread indices are `0, 1, 1, 0`. -/
theorem C1_thread_indexing_witness :
    threadsFit exampleData.Threads.length rowsTwoThreads ∧
    (∃ out, LoadEvents sortByStartType CanMerge 0 exampleData rowsTwoThreads = some out ∧
      out.VisibleThreadIDs = firstSeen (rowsTwoThreads.map (fun r => r.ThreadID)) ∧
      out.VisibleThreadIDs.Nodup ∧
      (∀ t, t ∈ out.VisibleThreadIDs ↔ ∃ r ∈ rowsTwoThreads, r.ThreadID = t) ∧
      (∀ a ∈ out.VisibleThreadIDs, ∀ b ∈ out.VisibleThreadIDs,
        (List.indexOf a out.VisibleThreadIDs < List.indexOf b out.VisibleThreadIDs ↔
          List.indexOf a (rowsTwoThreads.map (fun r => r.ThreadID)) <
            List.indexOf b (rowsTwoThreads.map (fun r => r.ThreadID)))) ∧
      ∀ e ∈ out.Data,
        e.ThreadIndex = (List.indexOf e.ThreadID out.VisibleThreadIDs : Nat) ∧
        out.VisibleThreadIDs[List.indexOf e.ThreadID out.VisibleThreadIDs]? = some e.ThreadID) ∧
    (pass CanMerge 0 3 rowsTwoThreads).map
        (fun st => (st.newVisibleThreadIDs, st.newData.map (fun e => e.ThreadIndex))) =
      some ([7, 9], [0, 1, 1, 0]) :=
  ⟨by decide,
   C1_thread_indexing sortByStartType CanMerge 0 exampleData rowsTwoThreads (by decide),
   by decide⟩

/-! ## Coalescing disabled -/

theorem toRow_rowEvent (st : PassState) (r : Row) : (rowEvent st r).toRow = r := rfl

theorem toRow_placedEvent (st : PassState) (r : Row) (k : Nat) :
    (placedEvent st r k).toRow = r := rfl

theorem noMerge_pass (canMerge : Event → Event → Time → Bool) {coalesce : Time} (n : Nat)
    (hc : coalesce ≤ 0) :
    ∀ rows st, pass canMerge coalesce n rows = some st →
      st.newData.map Event.toRow = rows ∧ st.mergeLog = [] := by
  refine pass_induction canMerge coalesce n
    (fun rows st => st.newData.map Event.toRow = rows ∧ st.mergeLog = []) ⟨rfl, rfl⟩ ?_
  intro pre st r st1 _ hP hstep
  obtain ⟨h1, h2⟩ := hP
  rcases step_cases hstep with ⟨_, e⟩ | ⟨_, stack, stack1, prev, _, _, ⟨_, e⟩ | ⟨p, d, hmd, _, _⟩⟩
  · subst e
    exact ⟨by simp [h1, toRow_rowEvent], h2⟩
  · subst e
    exact ⟨by simp [h1, toRow_placedEvent], h2⟩
  · exact absurd (mergeDecision_merge hmd).1 (not_lt.mpr hc)

/-- C2: with a threshold at most 0 every interval is kept: the published list has
as many events as there are rows, `Merge` is never called, and the events of the
pass carry, in order, exactly the scanned columns (start and end fields included)
of the rows. -/
theorem C2_no_coalescing (S : ByTypeSort) (canMerge : Event → Event → Time → Bool)
    (coalesce : Time) (self : Data) (rows : List Row)
    (hc : coalesce ≤ 0) (hfit : threadsFit self.Threads.length rows) :
    ∃ st out, pass canMerge coalesce self.Threads.length rows = some st ∧
      LoadEvents S canMerge coalesce self rows = some out ∧
      out.Data.length = rows.length ∧
      st.mergeLog = [] ∧
      st.newData.map Event.toRow = rows ∧
      List.Perm (out.Data.map Event.toRow) rows := by
  obtain ⟨st, hst⟩ := pass_isSome canMerge coalesce _ rows hfit
  obtain ⟨h1, h2⟩ := noMerge_pass canMerge _ hc rows st hst
  refine ⟨st, _, hst, LoadEvents_eq_some hst, ?_, h2, h1, ?_⟩
  · show (S.sort st.newData).length = rows.length
    rw [(S.perm st.newData).length_eq, ← h1, List.length_map]
  · show List.Perm ((S.sort st.newData).map Event.toRow) rows
    have := (S.perm st.newData).map Event.toRow
    rwa [h1] at this

/-- C2 on scenario A: three intervals on one thread with threshold 0 give three
events, all of depth 0. -/
theorem C2_no_coalescing_witness :
    (0 : Time) ≤ 0 ∧ threadsFit exampleData.Threads.length rowsScenarioA ∧
    (∃ st out, pass CanMerge 0 exampleData.Threads.length rowsScenarioA = some st ∧
      LoadEvents sortByStartType CanMerge 0 exampleData rowsScenarioA = some out ∧
      out.Data.length = rowsScenarioA.length ∧
      st.mergeLog = [] ∧
      st.newData.map Event.toRow = rowsScenarioA ∧
      List.Perm (out.Data.map Event.toRow) rowsScenarioA) ∧
    (pass CanMerge 0 exampleData.Threads.length rowsScenarioA).map
        (fun st => st.newData.map (fun e => (e.StartTime, e.EndTime, e.Depth))) =
      some [(0, 1, 0), (1, 2, 0), (2, 3, 0)] :=
  ⟨le_refl _, by decide,
   C2_no_coalescing sortByStartType CanMerge 0 exampleData rowsScenarioA (le_refl _) (by decide),
   by decide⟩

/-! ## Bookmark rows -/

theorem filter_set_of_not {α : Type} (P : α → Bool) (y : α) (hy : P y = false) :
    ∀ (l : List α) (p : Nat) (d : α), l[p]? = some d → P d = false →
      (l.set p y).filter P = l.filter P
  | [], _, _, h, _ => by simp at h
  | a :: l, 0, d, h, hd => by
    simp only [List.getElem?_cons_zero, Option.some.injEq] at h
    subst h
    simp [List.filter_cons, hy, hd]
  | a :: l, p + 1, d, h, hd => by
    simp only [List.getElem?_cons_succ] at h
    simp only [List.set_cons_succ, List.filter_cons]
    rw [filter_set_of_not P y hy l p d h hd]

/-- What the pass keeps about bookmark rows, merge targets and stack entries. -/
theorem bookmark_pass (canMerge : Event → Event → Time → Bool) (coalesce : Time) (n : Nat) :
    ∀ rows st, pass canMerge coalesce n rows = some st →
      (st.newData.filter (fun e => isBookmark e.StartType)).map Event.toRow
          = rows.filter (fun r => isBookmark r.StartType) ∧
      (∀ e ∈ st.newData, isBookmark e.StartType = true → e.Depth = NewEvent.Depth) ∧
      (∀ p ∈ st.mergeLog, ∃ e : Event, st.newData[p]? = some e ∧ e.StartType = "START") := by
  refine pass_induction canMerge coalesce n
    (fun rows st =>
      (st.newData.filter (fun e => isBookmark e.StartType)).map Event.toRow
          = rows.filter (fun r => isBookmark r.StartType) ∧
      (∀ e ∈ st.newData, isBookmark e.StartType = true → e.Depth = NewEvent.Depth) ∧
      (∀ p ∈ st.mergeLog, ∃ e : Event, st.newData[p]? = some e ∧ e.StartType = "START"))
    ⟨rfl, by simp [initState], by simp [initState]⟩ ?_
  intro pre st r st1 hpass hP hstep
  obtain ⟨h1, h2, h3⟩ := hP
  have hstk := stackInv_pass _ _ _ _ _ hpass
  rcases step_cases hstep with ⟨hs, e⟩ | ⟨hs, stack, stack1, prev, hstack, hpop, ⟨_, e⟩ | ⟨p, d, hmd, hd, e⟩⟩
  · subst e
    have hb : isBookmark r.StartType = true := by simp [isBookmark, hs]
    have hb1 : isBookmark (rowEvent st r).StartType = true := hb
    refine ⟨?_, ?_, ?_⟩
    · simp only [List.filter_append, List.map_append, h1]
      simp [List.filter_cons, hb, hb1, toRow_rowEvent]
    · intro e he hbe
      rcases List.mem_append.mp he with he | he
      · exact h2 e he hbe
      · rw [List.mem_singleton] at he
        subst he
        rfl
    · intro p hp
      obtain ⟨e, he, hes⟩ := h3 p hp
      exact ⟨e, getElem?_append_some _ he, hes⟩
  · subst e
    have hb : isBookmark r.StartType = false := by simp [isBookmark, hs]
    have hb1 : isBookmark (placedEvent st r stack1.length).StartType = false := hb
    refine ⟨?_, ?_, ?_⟩
    · simp only [List.filter_append, List.map_append, h1]
      simp [List.filter_cons, hb, hb1]
    · intro e he hbe
      rcases List.mem_append.mp he with he | he
      · exact h2 e he hbe
      · rw [List.mem_singleton] at he
        subst he
        rw [hb1] at hbe
        cases hbe
    · intro p hp
      obtain ⟨e, he, hes⟩ := h3 p hp
      exact ⟨e, getElem?_append_some _ he, hes⟩
  · subst e
    have hb : isBookmark r.StartType = false := by simp [isBookmark, hs]
    obtain ⟨_, hprev, _⟩ := mergeDecision_merge hmd
    subst hprev
    obtain ⟨d1, hd1, hds, _⟩ := stackOK_mem _ (hstk.2.2 _ _ hstack) p (popLoop_prev_mem hpop)
    rw [hd] at hd1
    cases hd1
    have hbd : isBookmark d.StartType = false := by simp [isBookmark, hds]
    have hbm : isBookmark (Merge d (placedEvent st r stack1.length)).StartType = false := hbd
    refine ⟨?_, ?_, ?_⟩
    · show (List.filter (fun e => isBookmark e.StartType)
          (st.newData.set p (Merge d (placedEvent st r stack1.length)))).map Event.toRow = _
      rw [filter_set_of_not (fun e => isBookmark e.StartType) _ hbm st.newData p d hd hbd, h1]
      simp [List.filter_cons, hb]
    · intro e he hbe
      rcases List.mem_or_eq_of_mem_set he with he | he
      · exact h2 e he hbe
      · subst he
        rw [hbm] at hbe
        cases hbe
    · intro q hq
      rcases List.mem_append.mp hq with hq | hq
      · obtain ⟨e, he, hes⟩ := h3 q hq
        obtain ⟨e1, g1, g2, _⟩ := merge_keeps (placedEvent st r stack1.length) hd q e he
        exact ⟨e1, g1, g2.trans hes⟩
      · rw [List.mem_singleton] at hq
        subst hq
        obtain ⟨e1, g1, g2, _⟩ := merge_keeps (placedEvent st r stack1.length) hd q d hd
        exact ⟨e1, g1, g2.trans hds⟩

theorem take_threadsFit {n : Nat} (rows : List Row) (k : Nat) (h : threadsFit n rows) :
    threadsFit n (rows.take k) := by
  have key : ∀ (post pre : List Row), threadsFit n (pre ++ post) → threadsFit n pre := by
    intro post
    induction post using List.reverseRecOn with
    | nil => intro pre h; simpa using h
    | append_singleton post r ih =>
      intro pre h
      rw [← List.append_assoc] at h
      exact ih pre (threadsFit_of_snoc h)
  apply key (rows.drop k)
  rw [List.take_append_drop]
  exact h

/-- C4: every bookmark row appears in the output exactly once and unmodified: the
bookmark events of the pass carry, in order, exactly the scanned columns of the
bookmark rows (so do the published ones, up to the final rearrangement), their
depth is the default one, no call of `Merge` has a bookmark as target, and at
every point of the pass every index held on a stack refers to a `START` event. -/
theorem C4_bookmarks_untouched (S : ByTypeSort) (canMerge : Event → Event → Time → Bool)
    (coalesce : Time) (self : Data) (rows : List Row)
    (hfit : threadsFit self.Threads.length rows) :
    ∃ st out, pass canMerge coalesce self.Threads.length rows = some st ∧
      LoadEvents S canMerge coalesce self rows = some out ∧
      (st.newData.filter (fun e => isBookmark e.StartType)).map Event.toRow
          = rows.filter (fun r => isBookmark r.StartType) ∧
      List.Perm ((out.Data.filter (fun e => isBookmark e.StartType)).map Event.toRow)
          (rows.filter (fun r => isBookmark r.StartType)) ∧
      (∀ e ∈ out.Data, isBookmark e.StartType = true → e.Depth = NewEvent.Depth) ∧
      (∀ p ∈ st.mergeLog, ∃ e : Event, st.newData[p]? = some e ∧ e.StartType = "START") ∧
      (∀ k, ∃ stk, pass canMerge coalesce self.Threads.length (rows.take k) = some stk ∧
        ∀ stack ∈ stk.threadStacks, ∀ i ∈ stack,
          ∃ e : Event, stk.newData[i]? = some e ∧ e.StartType = "START") := by
  obtain ⟨st, hst⟩ := pass_isSome canMerge coalesce _ rows hfit
  obtain ⟨h1, h2, h3⟩ := bookmark_pass canMerge coalesce _ rows st hst
  refine ⟨st, _, hst, LoadEvents_eq_some hst, h1, ?_, ?_, h3, ?_⟩
  · show List.Perm (((S.sort st.newData).filter (fun e => isBookmark e.StartType)).map
        Event.toRow) _
    rw [← h1]
    exact ((S.perm st.newData).filter _).map _
  · intro e he
    exact h2 e ((S.perm st.newData).mem_iff.mp he)
  · intro k
    obtain ⟨stk, hstk⟩ := pass_isSome canMerge coalesce _ _ (take_threadsFit rows k hfit)
    refine ⟨stk, hstk, ?_⟩
    intro stack hstack i hi
    obtain ⟨ti, hti⟩ := List.mem_iff_getElem?.mp hstack
    obtain ⟨e, he, hes, _⟩ :=
      stackOK_mem _ ((stackInv_pass _ _ _ _ _ hstk).2.2 ti stack hti) i hi
    exact ⟨e, he, hes⟩

/-- C4 on scenario E: the bookmark between the nested intervals comes out with its
own columns and the default depth, and the depths around it are 0, 1, 1. -/
theorem C4_bookmarks_untouched_witness :
    threadsFit exampleData.Threads.length rowsScenarioE ∧
    (∃ st out, pass CanMerge 1 exampleData.Threads.length rowsScenarioE = some st ∧
      LoadEvents sortByStartType CanMerge 1 exampleData rowsScenarioE = some out ∧
      (st.newData.filter (fun e => isBookmark e.StartType)).map Event.toRow
          = rowsScenarioE.filter (fun r => isBookmark r.StartType) ∧
      List.Perm ((out.Data.filter (fun e => isBookmark e.StartType)).map Event.toRow)
          (rowsScenarioE.filter (fun r => isBookmark r.StartType)) ∧
      (∀ e ∈ out.Data, isBookmark e.StartType = true → e.Depth = NewEvent.Depth) ∧
      (∀ p ∈ st.mergeLog, ∃ e : Event, st.newData[p]? = some e ∧ e.StartType = "START") ∧
      (∀ k, ∃ stk, pass CanMerge 1 exampleData.Threads.length (rowsScenarioE.take k)
          = some stk ∧
        ∀ stack ∈ stk.threadStacks, ∀ i ∈ stack,
          ∃ e : Event, stk.newData[i]? = some e ∧ e.StartType = "START")) ∧
    (pass CanMerge 0 exampleData.Threads.length rowsScenarioE).map
        (fun st => st.newData.map (fun e => (e.ID, e.StartType, e.Depth))) =
      some [(1, "START", 0), (2, "BMARK", 0), (3, "START", 1), (4, "START", 1)] :=
  ⟨by decide,
   C4_bookmarks_untouched sortByStartType CanMerge 1 exampleData rowsScenarioE (by decide),
   by decide⟩

/-! ## Depths form a stack trace -/

theorem same_thread_of_index {pre : List Row} {st : PassState} {e : Event} (r : Row)
    (htab : TableInv pre st) (he : e ∈ st.newData)
    (hidx : e.ThreadIndex = (rowIndex st r : Int)) : e.ThreadID = r.ThreadID := by
  obtain ⟨h1, h2⟩ := htab.2 e he
  rw [h2, rowIndex_eq r htab] at hidx
  have hidx1 : List.indexOf e.ThreadID (firstSeen (pre.map (fun x => x.ThreadID))) =
      List.indexOf r.ThreadID (firstSeen ((pre ++ [r]).map (fun x => x.ThreadID))) := by
    exact_mod_cast hidx
  rw [List.map_append] at hidx1
  simp only [List.map_cons, List.map_nil] at hidx1
  rw [← indexOf_firstSeen_snoc r.ThreadID h1] at hidx1
  have hm1 : e.ThreadID ∈ firstSeen (pre.map (fun x => x.ThreadID) ++ [r.ThreadID]) :=
    mem_firstSeen.mpr (List.mem_append_left _ h1)
  have hm2 : r.ThreadID ∈ firstSeen (pre.map (fun x => x.ThreadID) ++ [r.ThreadID]) :=
    mem_firstSeen.mpr (by simp)
  exact (List.indexOf_inj hm1 hm2).mp hidx1

/-- Every event of the pass has the thread, the start type and the end time of one
of the rows consumed so far. -/
theorem origin_pass (canMerge : Event → Event → Time → Bool) (coalesce : Time) (n : Nat) :
    ∀ rows st, pass canMerge coalesce n rows = some st →
      ∀ e ∈ st.newData, ∃ x ∈ rows, x.ThreadID = e.ThreadID ∧ x.StartType = e.StartType ∧
        x.EndTime = e.EndTime := by
  refine pass_induction canMerge coalesce n
    (fun rows st => ∀ e ∈ st.newData, ∃ x ∈ rows, x.ThreadID = e.ThreadID ∧
      x.StartType = e.StartType ∧ x.EndTime = e.EndTime) (by simp [initState]) ?_
  intro pre st r st1 hpass hP hstep
  have hstk := stackInv_pass _ _ _ _ _ hpass
  have htab := tableInv_pass _ _ _ _ _ hpass
  have hold : ∀ e ∈ st.newData, ∃ x ∈ pre ++ [r], x.ThreadID = e.ThreadID ∧
      x.StartType = e.StartType ∧ x.EndTime = e.EndTime := by
    intro e he
    obtain ⟨x, hx, h⟩ := hP e he
    exact ⟨x, List.mem_append_left _ hx, h⟩
  rcases step_cases hstep with ⟨_, e⟩ | ⟨hs, stack, stack1, prev, hstack, hpop, ⟨_, e⟩ | ⟨p, d, hmd, hd, e⟩⟩
  · subst e
    intro e he
    rcases List.mem_append.mp he with he | he
    · exact hold e he
    · rw [List.mem_singleton] at he
      subst he
      exact ⟨r, by simp, rfl, rfl, rfl⟩
  · subst e
    intro e he
    rcases List.mem_append.mp he with he | he
    · exact hold e he
    · rw [List.mem_singleton] at he
      subst he
      exact ⟨r, by simp, rfl, rfl, rfl⟩
  · subst e
    intro e he
    rcases List.mem_or_eq_of_mem_set he with he | he
    · exact hold e he
    · subst he
      obtain ⟨_, hprev, _⟩ := mergeDecision_merge hmd
      subst hprev
      obtain ⟨d1, hd1, hds, hdi⟩ :=
        stackOK_mem _ (hstk.2.2 _ _ hstack) p (popLoop_prev_mem hpop)
      rw [hd] at hd1
      cases hd1
      refine ⟨r, by simp, ?_, ?_, rfl⟩
      · rw [Merge_ThreadID]
        exact (same_thread_of_index r htab (List.getElem?_mem hd) hdi).symm
      · rw [Merge_StartType, hds, hs]

theorem stackOK_reverse {nd : List Event} {par : List (Option Nat)} {ti : Nat} :
    ∀ (s : List Nat), StackOK nd par ti s → ∀ (j i : Nat), s.reverse[j]? = some i →
      ∃ e : Event, nd[i]? = some e ∧ e.StartType = "START" ∧ e.ThreadIndex = (ti : Int) ∧
        e.Depth = (j : Int)
  | [], _, j, i, h => by simp at h
  | top :: rest, hok, j, i, h => by
    rw [List.reverse_cons] at h
    by_cases hj : j < rest.reverse.length
    · rw [List.getElem?_append_left hj] at h
      exact stackOK_reverse rest hok.2.2 j i h
    · have hlen : (rest.reverse ++ [top]).length = rest.length + 1 := by simp
      have hj2 : j < rest.length + 1 := by
        rw [← hlen]
        exact (List.getElem?_eq_some.mp h).1
      have hj3 : j = rest.length := by
        simp only [List.length_reverse] at hj
        omega
      subst hj3
      have : (rest.reverse ++ [top])[rest.length]? = some top := by
        simp
      rw [this] at h
      cases h
      exact hok.1

theorem merge_keeps_back {nd : List Event} {p : Nat} {d : Event} (x : Event)
    (hd : nd[p]? = some d) :
    ∀ (i : Nat) (e1 : Event), (nd.set p (Merge d x))[i]? = some e1 →
      ∃ e : Event, nd[i]? = some e ∧ e1.StartType = e.StartType ∧
        e1.ThreadIndex = e.ThreadIndex ∧ e1.Depth = e.Depth ∧ e1.ThreadID = e.ThreadID := by
  intro i e1 h
  have hp : p < nd.length := (List.getElem?_eq_some.mp hd).1
  rw [List.getElem?_set] at h
  by_cases hip : p = i
  · subst hip
    simp only [if_true, hp] at h
    cases h
    exact ⟨d, hd, rfl, rfl, rfl, rfl⟩
  · simp only [hip, if_false] at h
    exact ⟨e1, h, rfl, rfl, rfl, rfl⟩

/-- Every stack-participating event of the pass has depth 0 and no recorded
ancestor, or its recorded ancestor is an earlier stack-participating event of the
same thread index, one level up. -/
theorem parent_pass (canMerge : Event → Event → Time → Bool) (coalesce : Time) (n : Nat) :
    ∀ rows st, pass canMerge coalesce n rows = some st →
      ∀ (i : Nat) (e : Event), st.newData[i]? = some e → e.StartType = "START" →
        (st.parent[i]? = some none ∧ e.Depth = 0) ∨
        ∃ (j : Nat) (a : Event), st.parent[i]? = some (some j) ∧ j < i ∧
          st.newData[j]? = some a ∧ a.StartType = "START" ∧
          a.ThreadIndex = e.ThreadIndex ∧ a.Depth + 1 = e.Depth := by
  refine pass_induction canMerge coalesce n
    (fun _ st => ∀ (i : Nat) (e : Event), st.newData[i]? = some e → e.StartType = "START" →
        (st.parent[i]? = some none ∧ e.Depth = 0) ∨
        ∃ (j : Nat) (a : Event), st.parent[i]? = some (some j) ∧ j < i ∧
          st.newData[j]? = some a ∧ a.StartType = "START" ∧
          a.ThreadIndex = e.ThreadIndex ∧ a.Depth + 1 = e.Depth) (by simp [initState]) ?_
  intro pre st r st1 hpass hP hstep
  obtain ⟨hlen, hpar, hst⟩ := stackInv_pass _ _ _ _ _ hpass
  have happ : ∀ (x : Event) (y : Option Nat) (i : Nat) (e : Event),
      st.newData[i]? = some e → e.StartType = "START" →
        ((st.parent ++ [y])[i]? = some none ∧ e.Depth = 0) ∨
        ∃ (j : Nat) (a : Event), (st.parent ++ [y])[i]? = some (some j) ∧ j < i ∧
          (st.newData ++ [x])[j]? = some a ∧ a.StartType = "START" ∧
          a.ThreadIndex = e.ThreadIndex ∧ a.Depth + 1 = e.Depth := by
    intro x y i e hi hs
    rcases hP i e hi hs with ⟨h1, h2⟩ | ⟨j, a, h1, h2, h3, h4⟩
    · exact Or.inl ⟨getElem?_append_some _ h1, h2⟩
    · exact Or.inr ⟨j, a, getElem?_append_some _ h1, h2, getElem?_append_some _ h3, h4⟩
  have hsplit : ∀ (x : Event) (i : Nat) (e : Event), (st.newData ++ [x])[i]? = some e →
      st.newData[i]? = some e ∨ (i = st.newData.length ∧ e = x) := by
    intro x i e hi
    by_cases hlt : i < st.newData.length
    · rw [List.getElem?_append_left hlt] at hi
      exact Or.inl hi
    · have hi2 := (List.getElem?_eq_some.mp hi).1
      simp only [List.length_append, List.length_singleton] at hi2
      have : i = st.newData.length := by omega
      subst this
      rw [getElem?_snoc_length] at hi
      cases hi
      exact Or.inr ⟨rfl, rfl⟩
  rcases step_cases hstep with ⟨hns, e⟩ | ⟨hs, stack, stack1, prev, hstack, hpop, ⟨_, e⟩ | ⟨p, d, hmd, hd, e⟩⟩
  · subst e
    intro i e hi hes
    rcases hsplit _ i e hi with hi | ⟨_, rfl⟩
    · exact happ _ _ i e hi hes
    · exact absurd hes hns
  · subst e
    intro i e hi hes
    rcases hsplit _ i e hi with hi | ⟨rfl, rfl⟩
    · exact happ _ _ i e hi hes
    · obtain ⟨popped, hsp, _, _, _⟩ := popLoop_spec _ _ _ _ _ _ hpop
      have hok := hst _ stack hstack
      rw [hsp] at hok
      have hok1 := stackOK_suffix _ _ hok
      have hpl : (st.parent ++ [stack1.head?])[st.newData.length]? = some stack1.head? := by
        rw [← hpar]
        exact getElem?_snoc_length _ _
      cases stack1 with
      | nil => exact Or.inl ⟨hpl, rfl⟩
      | cons top rest =>
        right
        obtain ⟨⟨a, ha1, ha2, ha3, ha4⟩, _, _⟩ := hok1
        refine ⟨top, a, hpl, (List.getElem?_eq_some.mp ha1).1, getElem?_append_some _ ha1,
          ha2, ha3, ?_⟩
        rw [ha4]
        show (rest.length : Int) + 1 = ((top :: rest).length : Int)
        simp
  · subst e
    intro i e1 hi hes
    obtain ⟨e, he, g1, g2, g3, _⟩ := merge_keeps_back _ hd i e1 hi
    rcases hP i e he (g1 ▸ hes) with ⟨h1, h2⟩ | ⟨j, a, h1, h2, h3, h4, h5, h6⟩
    · exact Or.inl ⟨h1, by rw [g3]; exact h2⟩
    · obtain ⟨a1, k1, k2, k3, k4⟩ := merge_keeps (placedEvent st r stack1.length) hd j a h3
      exact Or.inr ⟨j, a1, h1, h2, k1, k2.trans h4, by rw [k3, g2]; exact h5,
        by rw [k4, g3]; exact h6⟩

theorem same_thread_events {rows : List Row} {st : PassState} {a e : Event}
    (htab : TableInv rows st) (ha : a ∈ st.newData) (he : e ∈ st.newData)
    (hidx : a.ThreadIndex = e.ThreadIndex) : a.ThreadID = e.ThreadID := by
  obtain ⟨a1, a2⟩ := htab.2 a ha
  obtain ⟨e1, e2⟩ := htab.2 e he
  rw [a2, e2] at hidx
  have h : List.indexOf a.ThreadID (firstSeen (rows.map (fun x => x.ThreadID))) =
      List.indexOf e.ThreadID (firstSeen (rows.map (fun x => x.ThreadID))) := by
    exact_mod_cast hidx
  exact (List.indexOf_inj (mem_firstSeen.mpr a1) (mem_firstSeen.mpr e1)).mp h

theorem take_succ_of_getElem? {rows : List Row} {k : Nat} {r : Row} (h : rows[k]? = some r) :
    rows.take (k + 1) = rows.take k ++ [r] := by
  rw [List.take_succ, h]
  rfl

/-- What the pop loop establishes for the row at position `k` of the stream. -/
theorem placement (canMerge : Event → Event → Time → Bool) (coalesce : Time) (n : Nat)
    (rows : List Row) (hfit : threadsFit n rows) (k : Nat) (r : Row)
    (hk : rows[k]? = some r) (hs : r.StartType = "START") :
    ∃ stk d, pass canMerge coalesce n (rows.take k) = some stk ∧
      depthOfRow stk r = some d ∧
      (∃ stk1, step canMerge coalesce stk r = some stk1 ∧
        (stk1.newData = stk.newData ++ [placedEvent stk r d] ∨
          stk1.newData.length = stk.newData.length)) ∧
      (∀ m : Nat, d = m + 1 → ∃ (j : Nat) (a : Event), stk.newData[j]? = some a ∧
        a.StartType = "START" ∧ a.ThreadID = r.ThreadID ∧ a.Depth = (m : Int) ∧
        a.EndTime > r.StartTime) ∧
      ((∀ x ∈ rows.take k, x.StartType = "START" → x.ThreadID ≠ r.ThreadID) → d = 0) := by
  obtain ⟨stk1, hstk1⟩ := pass_isSome canMerge coalesce n _ (take_threadsFit rows (k + 1) hfit)
  rw [take_succ_of_getElem? hk, pass_snoc] at hstk1
  cases hstk : pass canMerge coalesce n (rows.take k) with
  | none => simp [hstk] at hstk1
  | some stk =>
    rw [hstk] at hstk1
    have hstep : step canMerge coalesce stk r = some stk1 := hstk1
    have htab := tableInv_pass _ _ _ _ _ hstk
    have hinv := stackInv_pass _ _ _ _ _ hstk
    have horg := origin_pass _ _ _ _ _ hstk
    rcases step_cases hstep with ⟨hns, _⟩ | ⟨_, stack, stack1, prev, hstack, hpop, hres⟩
    · exact absurd hs hns
    · obtain ⟨popped, hsp, _, hopen, _⟩ := popLoop_spec _ _ _ _ _ _ hpop
      have hok := hinv.2.2 _ stack hstack
      rw [hsp] at hok
      have hok1 := stackOK_suffix _ _ hok
      have htop : ∀ top rest, stack1 = top :: rest → ∃ a : Event, stk.newData[top]? = some a ∧
          a.StartType = "START" ∧ a.ThreadID = r.ThreadID ∧ a.Depth = (rest.length : Int) ∧
          a.EndTime > r.StartTime := by
        intro top rest hst1
        subst hst1
        obtain ⟨⟨a, ha1, ha2, ha3, ha4⟩, _, _⟩ := hok1
        obtain ⟨a1, hb1, hb2⟩ := hopen top (by simp)
        rw [ha1] at hb1
        cases hb1
        exact ⟨a, ha1, ha2,
          same_thread_of_index r htab (List.getElem?_mem ha1) ha3, ha4, hb2⟩
      refine ⟨stk, stack1.length, rfl, ?_, ⟨stk1, hstep, ?_⟩, ?_, ?_⟩
      · unfold depthOfRow
        simp [hstack, hpop]
      · rcases hres with ⟨_, e⟩ | ⟨p, d, _, _, e⟩
        · subst e
          exact Or.inl rfl
        · subst e
          exact Or.inr (by simp)
      · intro m hm
        cases hst1 : stack1 with
        | nil => rw [hst1] at hm; simp at hm
        | cons top rest =>
          obtain ⟨a, h1, h2, h3, h4, h5⟩ := htop top rest hst1
          rw [hst1] at hm
          simp only [List.length_cons, Nat.add_right_cancel_iff] at hm
          exact ⟨top, a, h1, h2, h3, by rw [h4, hm], h5⟩
      · intro hfirst
        cases hst1 : stack1 with
        | nil => rfl
        | cons top rest =>
          obtain ⟨a, h1, h2, h3, _⟩ := htop top rest hst1
          obtain ⟨x, hx, g1, g2, _⟩ := horg a (List.getElem?_mem h1)
          exact absurd (g1.trans h3) (hfirst x hx (g2.trans h2))

/-- C9: depths never skip. Throughout the pass the entry at height `j` of every
thread's stack is an output event of that thread with depth `j`; a row placed at
depth `m + 1` finds, among the events output before it, an event of its thread
with depth `m` whose end time is after the row's start time; the first
stack-participating row of a thread is placed at depth 0; and in the output every
stack-participating event of depth `m + 1` comes after one of its thread with
depth `m`. -/
theorem C9_depth_never_skips (canMerge : Event → Event → Time → Bool) (coalesce : Time)
    (n : Nat) (rows : List Row) (hfit : threadsFit n rows) :
    (∀ k, ∃ stk, pass canMerge coalesce n (rows.take k) = some stk ∧
      ∀ (ti : Nat) (stack : List Nat), stk.threadStacks[ti]? = some stack →
        ∀ (j i : Nat), stack.reverse[j]? = some i →
          ∃ e : Event, stk.newData[i]? = some e ∧ e.StartType = "START" ∧
            e.ThreadIndex = (ti : Int) ∧ e.Depth = (j : Int)) ∧
    (∀ (k : Nat) (r : Row), rows[k]? = some r → r.StartType = "START" →
      ∃ stk d, pass canMerge coalesce n (rows.take k) = some stk ∧
        depthOfRow stk r = some d ∧
        (∃ stk1, step canMerge coalesce stk r = some stk1 ∧
          (stk1.newData = stk.newData ++ [placedEvent stk r d] ∨
            stk1.newData.length = stk.newData.length)) ∧
        (∀ m : Nat, d = m + 1 → ∃ (j : Nat) (a : Event), stk.newData[j]? = some a ∧
          a.StartType = "START" ∧ a.ThreadID = r.ThreadID ∧ a.Depth = (m : Int) ∧
          a.EndTime > r.StartTime) ∧
        ((∀ x ∈ rows.take k, x.StartType = "START" → x.ThreadID ≠ r.ThreadID) → d = 0)) ∧
    (∃ st, pass canMerge coalesce n rows = some st ∧
      ∀ (i : Nat) (e : Event), st.newData[i]? = some e → e.StartType = "START" →
        e.Depth = 0 ∨
        ∃ (j : Nat) (a : Event), j < i ∧ st.newData[j]? = some a ∧ a.StartType = "START" ∧
          a.ThreadID = e.ThreadID ∧ a.Depth + 1 = e.Depth) := by
  refine ⟨?_, placement canMerge coalesce n rows hfit, ?_⟩
  · intro k
    obtain ⟨stk, hstk⟩ := pass_isSome canMerge coalesce n _ (take_threadsFit rows k hfit)
    exact ⟨stk, hstk, fun ti stack hstack =>
      stackOK_reverse stack ((stackInv_pass _ _ _ _ _ hstk).2.2 ti stack hstack)⟩
  · obtain ⟨st, hst⟩ := pass_isSome canMerge coalesce n rows hfit
    refine ⟨st, hst, ?_⟩
    intro i e hi hs
    rcases parent_pass _ _ _ _ _ hst i e hi hs with ⟨_, h⟩ | ⟨j, a, _, h2, h3, h4, h5, h6⟩
    · exact Or.inl h
    · exact Or.inr ⟨j, a, h2, h3, h4,
        same_thread_events (tableInv_pass _ _ _ _ _ hst) (List.getElem?_mem h3)
          (List.getElem?_mem hi) h5, h6⟩

/-- C9 on two threads: nested intervals and a later sibling on thread 7 get depths
0, 1, 1, the first interval of thread 9 depth 0. -/
theorem C9_depth_never_skips_witness :
    threadsFit 3 rowsNested ∧
    ((∀ k, ∃ stk, pass CanMerge 0 3 (rowsNested.take k) = some stk ∧
      ∀ (ti : Nat) (stack : List Nat), stk.threadStacks[ti]? = some stack →
        ∀ (j i : Nat), stack.reverse[j]? = some i →
          ∃ e : Event, stk.newData[i]? = some e ∧ e.StartType = "START" ∧
            e.ThreadIndex = (ti : Int) ∧ e.Depth = (j : Int)) ∧
    (∀ (k : Nat) (r : Row), rowsNested[k]? = some r → r.StartType = "START" →
      ∃ stk d, pass CanMerge 0 3 (rowsNested.take k) = some stk ∧
        depthOfRow stk r = some d ∧
        (∃ stk1, step CanMerge 0 stk r = some stk1 ∧
          (stk1.newData = stk.newData ++ [placedEvent stk r d] ∨
            stk1.newData.length = stk.newData.length)) ∧
        (∀ m : Nat, d = m + 1 → ∃ (j : Nat) (a : Event), stk.newData[j]? = some a ∧
          a.StartType = "START" ∧ a.ThreadID = r.ThreadID ∧ a.Depth = (m : Int) ∧
          a.EndTime > r.StartTime) ∧
        ((∀ x ∈ rowsNested.take k, x.StartType = "START" → x.ThreadID ≠ r.ThreadID) →
          d = 0)) ∧
    (∃ st, pass CanMerge 0 3 rowsNested = some st ∧
      ∀ (i : Nat) (e : Event), st.newData[i]? = some e → e.StartType = "START" →
        e.Depth = 0 ∨
        ∃ (j : Nat) (a : Event), j < i ∧ st.newData[j]? = some a ∧ a.StartType = "START" ∧
          a.ThreadID = e.ThreadID ∧ a.Depth + 1 = e.Depth)) ∧
    (pass CanMerge 0 3 rowsNested).map
        (fun st => (st.newData.map (fun e => (e.ThreadID, e.Depth)), st.threadStacks)) =
      some ([(7, 0), (7, 1), (9, 0), (7, 1)], [[3, 0], [2], []]) :=
  ⟨by decide, C9_depth_never_skips CanMerge 0 3 rowsNested (by decide), by decide⟩

/-! ## Running without thread labels -/

/-- C7: after `OpenFile` the thread-label list is empty, so `threadStacks` has no
slot and the first stack-participating row indexes it out of range: the call
panics instead of publishing a result. -/
theorem C7_panic_without_thread_labels (S : ByTypeSort)
    (canMerge : Event → Event → Time → Bool) (coalesce : Time) :
    (OpenFile exampleData).Threads = [] ∧
    LoadEvents S canMerge coalesce (OpenFile exampleData) [exampleRow 1 7 0 1 "START"]
      = none := by
  refine ⟨rfl, ?_⟩
  have h : pass canMerge coalesce (OpenFile exampleData).Threads.length
      [exampleRow 1 7 0 1 "START"] = none := by
    cases hp : pass canMerge coalesce (OpenFile exampleData).Threads.length
        [exampleRow 1 7 0 1 "START"] with
    | none => rfl
    | some st =>
      have hfit := threadsFit_of_pass _ _ _ _ _ hp
      have := hfit (exampleRow 1 7 0 1 "START") (by simp) rfl
      simp [OpenFile, exampleData] at this
  unfold LoadEvents
  rw [h]

/-! ## The published fields during a call -/

theorem loopStates_spec (canMerge : Event → Event → Time → Bool) (coalesce : Time)
    (self : Data) :
    ∀ (rows : List Row) (st : PassState),
      (loopStates canMerge coalesce self st rows).2 =
        rows.foldlM (step canMerge coalesce) st ∧
      ∃ k, k ≤ rows.length ∧
        (loopStates canMerge coalesce self st rows).1 = List.replicate k self ∧
        ((loopStates canMerge coalesce self st rows).2 ≠ none → k = rows.length)
  | [], st => ⟨rfl, 0, le_refl _, rfl, fun _ => rfl⟩
  | r :: rs, st => by
    unfold loopStates
    cases hstep : step canMerge coalesce st r with
    | none =>
      refine ⟨by simp [List.foldlM, hstep], 0, Nat.zero_le _, rfl, ?_⟩
      intro h
      exact absurd rfl h
    | some st1 =>
      obtain ⟨h1, k, hk, h2, h3⟩ := loopStates_spec canMerge coalesce self rs st1
      refine ⟨by simp [List.foldlM, hstep, h1], k + 1, by simpa using hk, ?_, ?_⟩
      · simp [h2, List.replicate_succ]
      · intro h
        simp only [List.length_cons, Nat.add_right_cancel_iff]
        exact h3 h

/-- C6, as the code has it: the published fields are written at the start of the
call, which clears them (lines 151-152), and in the final publish step (lines
240-241); in between, during the whole row loop, both are empty. The states of
the object are: the one on entry, the two clearing steps, the cleared object once
per completed iteration and, if the call completes, the new list with an empty
table followed by the complete new snapshot. -/
theorem C6_published_fields (S : ByTypeSort) (canMerge : Event → Event → Time → Bool)
    (coalesce : Time) (self : Data) (rows : List Row) :
    ∃ k, k ≤ rows.length ∧
      LoadEventsStates S canMerge coalesce self rows =
        [self, { self with Data := [] }, { self with Data := [], VisibleThreadIDs := [] }] ++
          List.replicate k { self with Data := [], VisibleThreadIDs := [] } ++
          (match LoadEvents S canMerge coalesce self rows with
           | none => []
           | some out => [{ out with VisibleThreadIDs := [] }, out]) ∧
      (LoadEvents S canMerge coalesce self rows ≠ none → k = rows.length) := by
  obtain ⟨h1, k, hk, h2, h3⟩ := loopStates_spec canMerge coalesce
    { self with Data := [], VisibleThreadIDs := [] } rows (initState self.Threads.length)
  have hpass : List.foldlM (step canMerge coalesce) (initState self.Threads.length) rows =
      pass canMerge coalesce self.Threads.length rows := rfl
  rw [hpass] at h1
  refine ⟨k, hk, ?_, ?_⟩
  · unfold LoadEventsStates LoadEvents
    simp only [h1, h2]
    cases pass canMerge coalesce self.Threads.length rows <;> rfl
  · intro h
    apply h3
    rw [h1]
    intro hnone
    apply h
    unfold LoadEvents
    rw [hnone]

/-- C6 fails as stated: a call on an object that holds a snapshot already shows,
before its publish step, states whose published fields differ from what they
were when the call began. -/
theorem C6_counterexample :
    ¬ (∀ s ∈ (LoadEventsStates sortByStartType CanMerge 0 snapshotData []).dropLast.dropLast,
        s.Data = snapshotData.Data ∧ s.VisibleThreadIDs = snapshotData.VisibleThreadIDs) := by
  intro h
  have h1 := (h { snapshotData with Data := [] } (by
    simp [LoadEventsStates, loopStates, List.dropLast])).1
  simp [snapshotData] at h1

/-! ## Merging two adjacent intervals -/

theorem step_first (canMerge : Event → Event → Time → Bool) (coalesce : Time) (m : Nat)
    (a : Row) (ha : a.StartType = "START") :
    step canMerge coalesce (initState (m + 1)) a =
      some { newData := [{ loadRow a with ThreadIndex := 0, Depth := 0 }],
             newVisibleThreadIDs := [a.ThreadID],
             threadStacks := [0] :: List.replicate m [],
             parent := [none],
             mergeLog := [] } := by
  simp [step, startStep, rowEvent, placedEvent, rowIndex, rowIds, threadIndex, scanThreadIDs,
    initState, popLoop, mergeDecision, loadRow, ha, List.replicate_succ]

theorem loadRow_StartType (r : Row) : (loadRow r).StartType = r.StartType := rfl

theorem loadRow_EndType (r : Row) : (loadRow r).EndType = r.EndType := rfl

theorem loadRow_StartTime (r : Row) : (loadRow r).StartTime = r.StartTime := rfl

theorem loadRow_EndTime (r : Row) : (loadRow r).EndTime = r.EndTime := rfl

theorem loadRow_Depth (r : Row) : (loadRow r).Depth = 0 := rfl

theorem step_second (coalesce : Time) (m : Nat) (a b : Row)
    (hb : b.StartType = "START") (hthread : a.ThreadID = b.ThreadID)
    (hgap : 0 ≤ b.StartTime - a.EndTime)
    (hcompat : compatible (loadRow a) (loadRow b) = true) :
    step CanMerge coalesce
      { newData := [{ loadRow a with ThreadIndex := 0, Depth := 0 }],
        newVisibleThreadIDs := [a.ThreadID],
        threadStacks := [0] :: List.replicate m [],
        parent := [none],
        mergeLog := [] } b =
      if 0 < coalesce ∧ b.StartTime - a.EndTime ≤ coalesce then
        some { newData := [Merge { loadRow a with ThreadIndex := 0, Depth := 0 }
                  { loadRow b with ThreadIndex := 0, Depth := 0 }],
               newVisibleThreadIDs := [a.ThreadID],
               threadStacks := [0] :: List.replicate m [],
               parent := [none],
               mergeLog := [0] }
      else
        some { newData := [{ loadRow a with ThreadIndex := 0, Depth := 0 },
                  { loadRow b with ThreadIndex := 0, Depth := 0 }],
               newVisibleThreadIDs := [a.ThreadID],
               threadStacks := [1] :: List.replicate m [],
               parent := [none, none],
               mergeLog := [] } := by
  have hclosed : ¬ (b.StartTime < a.EndTime) := by
    intro h
    linarith
  have hty : a.StartType = b.StartType ∧ a.EndType = b.EndType := by
    simpa [compatible, loadRow] using hcompat
  by_cases hc : 0 < coalesce
  · by_cases hg : b.StartTime - a.EndTime ≤ coalesce
    · have hg1 : b.StartTime ≤ coalesce + a.EndTime := by linarith
      simp [step, startStep, rowEvent, placedEvent, rowIndex, rowIds, threadIndex,
        scanThreadIDs, popLoop, mergeDecision, CanMerge, compatible, hb, hthread, hclosed, hc,
        hg, hg1, hty.1, hty.2, loadRow_StartType, loadRow_EndType, loadRow_StartTime,
        loadRow_EndTime, loadRow_Depth]
    · have hg1 : ¬ b.StartTime ≤ coalesce + a.EndTime := by
        intro h
        apply hg
        linarith
      simp [step, startStep, rowEvent, placedEvent, rowIndex, rowIds, threadIndex,
        scanThreadIDs, popLoop, mergeDecision, CanMerge, compatible, hb, hthread, hclosed, hc,
        hg, hg1, hty.1, hty.2, loadRow_StartType, loadRow_EndType, loadRow_StartTime,
        loadRow_EndTime, loadRow_Depth]
  · simp [step, startStep, rowEvent, placedEvent, rowIndex, rowIds, threadIndex,
        scanThreadIDs, popLoop, mergeDecision, hb, hthread, hclosed, hc,
        loadRow_StartType, loadRow_EndType, loadRow_StartTime,
        loadRow_EndTime, loadRow_Depth]

theorem LoadEvents_length (S : ByTypeSort) (canMerge : Event → Event → Time → Bool)
    (coalesce : Time) (self : Data) (rows : List Row) :
    (LoadEvents S canMerge coalesce self rows).map (fun out => out.Data.length) =
      (pass canMerge coalesce self.Threads.length rows).map (fun st => st.newData.length) := by
  unfold LoadEvents
  cases pass canMerge coalesce self.Threads.length rows with
  | none => rfl
  | some st => simp [(S.perm st.newData).length_eq]

theorem pass_pair (coalesce : Time) (m : Nat) (a b : Row)
    (ha : a.StartType = "START") (hb : b.StartType = "START")
    (hthread : a.ThreadID = b.ThreadID)
    (hcompat : compatible (loadRow a) (loadRow b) = true)
    (hgap : 0 ≤ b.StartTime - a.EndTime) :
    (pass CanMerge coalesce (m + 1) [a, b]).map (fun st => st.newData) =
      if 0 < coalesce ∧ b.StartTime - a.EndTime ≤ coalesce then
        some [Merge { loadRow a with ThreadIndex := 0, Depth := 0 }
                  { loadRow b with ThreadIndex := 0, Depth := 0 }]
      else
        some [{ loadRow a with ThreadIndex := 0, Depth := 0 },
                  { loadRow b with ThreadIndex := 0, Depth := 0 }] := by
  unfold pass
  simp only [List.foldlM, step_first CanMerge coalesce m a ha, Option.bind_eq_bind,
    Option.some_bind]
  rw [step_second coalesce m a b hb hthread hgap hcompat]
  split <;> simp

/-- C5, as the code has it: two compatible adjacent stack-participating intervals
`a`, `b` of one thread with gap `g = b.start - a.end ≥ 0` are merged into one
output event exactly when the threshold is positive and `g ≤ threshold`;
otherwise both are output, at depth 0. The merged event has the start fields of
`a` and the end fields of `b`. -/
theorem C5_merge_iff (S : ByTypeSort) (coalesce : Time) (self : Data) (a b : Row)
    (ha : a.StartType = "START") (hb : b.StartType = "START")
    (hthread : a.ThreadID = b.ThreadID)
    (hcompat : compatible (loadRow a) (loadRow b) = true)
    (hgap : 0 ≤ b.StartTime - a.EndTime)
    (hthreads : 0 < self.Threads.length) :
    ∃ out, LoadEvents S CanMerge coalesce self [a, b] = some out ∧
      (out.Data.length = 1 ↔ (0 < coalesce ∧ b.StartTime - a.EndTime ≤ coalesce)) ∧
      ((0 < coalesce ∧ b.StartTime - a.EndTime ≤ coalesce) →
        ∃ e, out.Data = [e] ∧ e.Depth = 0 ∧ e.ID = a.ID ∧ e.ThreadID = a.ThreadID ∧
          e.StartTime = a.StartTime ∧ e.StartType = a.StartType ∧
          e.StartText = a.StartText ∧ e.StartLocation = a.StartLocation ∧
          e.EndTime = b.EndTime ∧ e.EndType = b.EndType ∧
          e.EndText = b.EndText ∧ e.EndLocation = b.EndLocation) ∧
      (¬ (0 < coalesce ∧ b.StartTime - a.EndTime ≤ coalesce) →
        out.Data.length = 2 ∧ List.Perm (out.Data.map Event.toRow) [a, b] ∧
          ∀ e ∈ out.Data, e.Depth = 0) := by
  obtain ⟨m, hm⟩ : ∃ m, self.Threads.length = m + 1 := ⟨self.Threads.length - 1, by omega⟩
  have hp := pass_pair coalesce m a b ha hb hthread hcompat hgap
  rw [← hm] at hp
  cases hst : pass CanMerge coalesce self.Threads.length [a, b] with
  | none =>
    rw [hst] at hp
    split at hp <;> simp at hp
  | some st =>
    rw [hst] at hp
    refine ⟨_, LoadEvents_eq_some hst, ?_⟩
    have hperm := S.perm st.newData
    by_cases hc : 0 < coalesce ∧ b.StartTime - a.EndTime ≤ coalesce
    · rw [if_pos hc] at hp
      simp only [Option.map_some', Option.some.injEq] at hp
      conv at hperm => rhs; rw [hp]
      have hdata := List.perm_singleton.mp hperm
      refine ⟨?_, ?_, fun h => absurd hc h⟩
      · show (S.sort st.newData).length = 1 ↔ _
        rw [hdata]
        simp [hc]
      · intro _
        exact ⟨_, hdata, rfl, rfl, rfl, rfl, rfl, rfl, rfl, rfl, rfl, rfl, rfl⟩
    · rw [if_neg hc] at hp
      simp only [Option.map_some', Option.some.injEq] at hp
      conv at hperm => rhs; rw [hp]
      have hlen : (S.sort st.newData).length = 2 := hperm.length_eq
      refine ⟨?_, fun h => absurd h hc, fun _ => ⟨hlen, ?_, ?_⟩⟩
      · show (S.sort st.newData).length = 1 ↔ _
        rw [hlen]
        exact ⟨fun h => absurd h (by decide), fun h => absurd h hc⟩
      · exact hperm.map Event.toRow
      · intro e he
        have he1 := hperm.mem_iff.mp he
        simp only [List.mem_cons, List.mem_singleton, List.not_mem_nil, or_false] at he1
        rcases he1 with rfl | rfl <;> rfl

/-- C5 fails as stated at threshold 0: the intervals `[0,1)` and `[1,2)` are
compatible and adjacent with gap `0 ≤ threshold`, yet two events are output. -/
theorem C5_counterexample :
    rowC1.StartType = "START" ∧ rowTouching.StartType = "START" ∧
    rowC1.ThreadID = rowTouching.ThreadID ∧
    compatible (loadRow rowC1) (loadRow rowTouching) = true ∧
    (0 : Time) ≤ rowTouching.StartTime - rowC1.EndTime ∧
    rowTouching.StartTime - rowC1.EndTime ≤ (0 : Time) ∧
    (LoadEvents sortByStartType CanMerge 0 exampleData [rowC1, rowTouching]).map
      (fun out => out.Data.length) = some 2 := by
  refine ⟨rfl, rfl, rfl, by decide, ?_, ?_, ?_⟩
  · norm_num [rowC1, rowTouching, exampleRow]
  · norm_num [rowC1, rowTouching, exampleRow]
  · rw [LoadEvents_length]
    decide

/-- C5 on scenarios C and D: `[0,1)` and `[1.05,2)` merge into `[0,2)` at threshold
0.1 and stay two events at threshold 0.01. -/
theorem C5_merge_iff_witness :
    (rowC1.StartType = "START" ∧ rowC2.StartType = "START" ∧
      rowC1.ThreadID = rowC2.ThreadID ∧
      compatible (loadRow rowC1) (loadRow rowC2) = true ∧
      (0 : Time) ≤ rowC2.StartTime - rowC1.EndTime ∧
      0 < exampleData.Threads.length) ∧
    (∃ out, LoadEvents sortByStartType CanMerge (1 / 10) exampleData [rowC1, rowC2] = some out ∧
      (out.Data.length = 1 ↔
        ((0 : Time) < 1 / 10 ∧ rowC2.StartTime - rowC1.EndTime ≤ 1 / 10)) ∧
      (((0 : Time) < 1 / 10 ∧ rowC2.StartTime - rowC1.EndTime ≤ 1 / 10) →
        ∃ e, out.Data = [e] ∧ e.Depth = 0 ∧ e.ID = rowC1.ID ∧ e.ThreadID = rowC1.ThreadID ∧
          e.StartTime = rowC1.StartTime ∧ e.StartType = rowC1.StartType ∧
          e.StartText = rowC1.StartText ∧ e.StartLocation = rowC1.StartLocation ∧
          e.EndTime = rowC2.EndTime ∧ e.EndType = rowC2.EndType ∧
          e.EndText = rowC2.EndText ∧ e.EndLocation = rowC2.EndLocation) ∧
      (¬ ((0 : Time) < 1 / 10 ∧ rowC2.StartTime - rowC1.EndTime ≤ 1 / 10) →
        out.Data.length = 2 ∧ List.Perm (out.Data.map Event.toRow) [rowC1, rowC2] ∧
          ∀ e ∈ out.Data, e.Depth = 0)) ∧
    ((0 : Time) < 1 / 10 ∧ rowC2.StartTime - rowC1.EndTime ≤ 1 / 10) ∧
    ¬ ((0 : Time) < 1 / 100 ∧ rowC2.StartTime - rowC1.EndTime ≤ 1 / 100) :=
  ⟨⟨rfl, rfl, rfl, by decide, by norm_num [rowC1, rowC2, exampleRow], by decide⟩,
   C5_merge_iff sortByStartType (1 / 10) exampleData rowC1 rowC2 rfl rfl rfl (by decide)
     (by norm_num [rowC1, rowC2, exampleRow]) (by decide),
   by norm_num [rowC1, rowC2, exampleRow],
   by norm_num [rowC1, rowC2, exampleRow]⟩

/-! ## Depth as the number of open ancestors -/

theorem popLoop_dropWhile (nd : List Event) (s : Time) :
    ∀ (stack : List Nat) (prev : Option Nat) (stack1 : List Nat) (prev1 : Option Nat),
      popLoop nd s stack prev = some (stack1, prev1) →
      stack1 = stack.dropWhile (closedAt nd s)
  | [], prev, stack1, prev1, h => by
    simp only [popLoop, Option.some.injEq, Prod.mk.injEq] at h
    simp [h.1.symm]
  | top :: rest, prev, stack1, prev1, h => by
    rw [popLoop] at h
    cases hd : nd[top]? with
    | none => simp [hd] at h
    | some d =>
      simp only [hd] at h
      by_cases hopen : d.EndTime > s
      · simp only [hopen, if_true, Option.some.injEq, Prod.mk.injEq] at h
        have hc : ¬ closedAt nd s top = true := by
          simp [closedAt, hd, not_le.mpr hopen]
        rw [List.dropWhile_cons_of_neg hc]
        exact h.1.symm
      · simp only [hopen, if_false] at h
        have hc : closedAt nd s top = true := by
          simp [closedAt, hd, not_lt.mp hopen]
        rw [List.dropWhile_cons_of_pos hc]
        exact popLoop_dropWhile nd s rest (some top) stack1 prev1 h

theorem dropWhile_congr_mem {p q : Nat → Bool} :
    ∀ (l : List Nat), (∀ i ∈ l, p i = q i) → l.dropWhile p = l.dropWhile q
  | [], _ => rfl
  | a :: l, h => by
    have ha := h a (List.mem_cons_self _ _)
    have ih := dropWhile_congr_mem l (fun i hi => h i (List.mem_cons_of_mem _ hi))
    by_cases hp : p a = true
    · rw [List.dropWhile_cons_of_pos hp, List.dropWhile_cons_of_pos (ha ▸ hp), ih]
    · rw [List.dropWhile_cons_of_neg hp, List.dropWhile_cons_of_neg (ha ▸ hp)]

theorem dropWhile_dropWhile_imp {p q : Nat → Bool} (h : ∀ i, p i = true → q i = true) :
    ∀ (l : List Nat), (l.dropWhile p).dropWhile q = l.dropWhile q
  | [] => rfl
  | a :: l => by
    by_cases hp : p a = true
    · rw [List.dropWhile_cons_of_pos hp, List.dropWhile_cons_of_pos (h a hp)]
      exact dropWhile_dropWhile_imp h l
    · rw [List.dropWhile_cons_of_neg hp]

theorem closedAt_append (nd : List Event) (x : Event) (s : Time) {i : Nat}
    (h : i < nd.length) : closedAt (nd ++ [x]) s i = closedAt nd s i := by
  simp [closedAt, List.getElem?_append_left h]

theorem closedAt_mono (nd : List Event) {s s1 : Time} (h : s ≤ s1) (i : Nat)
    (hc : closedAt nd s i = true) : closedAt nd s1 i = true := by
  unfold closedAt at hc ⊢
  cases hd : nd[i]? with
  | none => simp [hd] at hc
  | some d =>
    simp only [hd, decide_eq_true_eq] at hc ⊢
    exact le_trans hc h

theorem getElem?_snoc_cases {α : Type} (l : List α) (x : α) (i : Nat) (e : α)
    (h : (l ++ [x])[i]? = some e) : (i < l.length ∧ l[i]? = some e) ∨ (i = l.length ∧ e = x) := by
  by_cases hlt : i < l.length
  · rw [List.getElem?_append_left hlt] at h
    exact Or.inl ⟨hlt, h⟩
  · have hi2 := (List.getElem?_eq_some.mp h).1
    simp only [List.length_append, List.length_singleton] at hi2
    have : i = l.length := by omega
    subst this
    rw [getElem?_snoc_length] at h
    cases h
    exact Or.inr ⟨rfl, rfl⟩

theorem stack_index_lt {n : Nat} {st : PassState} (hinv : StackInv n st) {tj : Nat}
    {stack : List Nat} (h : st.threadStacks[tj]? = some stack) :
    ∀ i ∈ stack, i < st.newData.length := by
  intro i hi
  obtain ⟨e, he, _⟩ := stackOK_mem _ (hinv.2.2 tj stack h) i hi
  exact (List.getElem?_eq_some.mp he).1

/-- With coalescing disabled, in canonical order and with properly nested rows: the
entries that the pop loop would leave on a stack at any later start time are as
many as the open events of that thread, and every depth counts open ancestors. -/
theorem depth_pass (canMerge : Event → Event → Time → Bool) {coalesce : Time} (n : Nat)
    (hc : coalesce ≤ 0) :
    ∀ rows st, pass canMerge coalesce n rows = some st →
      canonicalOrder rows → properlyNested rows →
      (∀ (ti : Nat) (stack : List Nat), st.threadStacks[ti]? = some stack →
        ∀ s : Time, (∀ x ∈ rows, x.StartTime ≤ s) →
          (stack.dropWhile (closedAt st.newData s)).length =
            st.newData.countP (openOn (ti : Int) s)) ∧
      (∀ (i : Nat) (e : Event), st.newData[i]? = some e → e.StartType = "START" →
        e.Depth = ((st.newData.take i).countP (openOn e.ThreadIndex e.StartTime) : Nat)) := by
  refine pass_induction canMerge coalesce n
    (fun rows st => canonicalOrder rows → properlyNested rows →
      (∀ (ti : Nat) (stack : List Nat), st.threadStacks[ti]? = some stack →
        ∀ s : Time, (∀ x ∈ rows, x.StartTime ≤ s) →
          (stack.dropWhile (closedAt st.newData s)).length =
            st.newData.countP (openOn (ti : Int) s)) ∧
      (∀ (i : Nat) (e : Event), st.newData[i]? = some e → e.StartType = "START" →
        e.Depth = ((st.newData.take i).countP (openOn e.ThreadIndex e.StartTime) : Nat)))
    ?_ ?_
  · intro _ _
    refine ⟨?_, by simp [initState]⟩
    intro ti stack h s _
    have : stack ∈ List.replicate n ([] : List Nat) := List.getElem?_mem h
    rw [List.eq_of_mem_replicate this]
    simp [initState]
  · intro pre st r st1 hpass hP hstep hcan hnest
    have hcan1 := List.pairwise_append.mp hcan
    have hnest1 := List.pairwise_append.mp hnest
    obtain ⟨hcount, hdepth⟩ := hP hcan1.1 hnest1.1
    have hle : ∀ x ∈ pre, x.StartTime ≤ r.StartTime := by
      intro x hx
      rcases hcan1.2.2 x hx r (List.mem_singleton_self r) with h | ⟨h, _⟩
      · exact le_of_lt h
      · exact le_of_eq h
    have hrows := (noMerge_pass canMerge n hc pre st hpass).1
    have hstk := stackInv_pass _ _ _ _ _ hpass
    have htab := tableInv_pass _ _ _ _ _ hpass
    have hdw : ∀ (x : Event) (tj : Nat) (stack : List Nat) (s : Time),
        st.threadStacks[tj]? = some stack →
        stack.dropWhile (closedAt (st.newData ++ [x]) s) =
          stack.dropWhile (closedAt st.newData s) := by
      intro x tj stack s h
      exact dropWhile_congr_mem stack
        (fun i hi => closedAt_append _ _ _ (stack_index_lt hstk h i hi))
    have hold : ∀ (x : Event) (i : Nat) (e : Event), i < st.newData.length →
        st.newData[i]? = some e → e.StartType = "START" →
        e.Depth =
          (((st.newData ++ [x]).take i).countP (openOn e.ThreadIndex e.StartTime) : Nat) := by
      intro x i e hi he hs
      rw [List.take_append_of_le_length (le_of_lt hi)]
      exact hdepth i e he hs
    rcases step_cases hstep with ⟨hns, e⟩ | ⟨hs, stack, stack1, prev, hstack, hpop, ⟨_, e⟩ | ⟨p, d, hmd, _, _⟩⟩
    · subst e
      have hno : ∀ (ti : Int) (s : Time), openOn ti s (rowEvent st r) = false := by
        intro ti s
        have : (rowEvent st r).StartType = r.StartType := rfl
        simp [openOn, this, hns]
      refine ⟨?_, ?_⟩
      · intro ti stack h s hs
        show (stack.dropWhile (closedAt (st.newData ++ [rowEvent st r]) s)).length =
          (st.newData ++ [rowEvent st r]).countP (openOn (ti : Int) s)
        rw [hdw _ ti stack s h, List.countP_append, List.countP_singleton, hno]
        simp only [Bool.false_eq_true, if_false, Nat.add_zero]
        exact hcount ti stack h s (fun x hx => hs x (List.mem_append_left _ hx))
      · intro i e he hes
        rcases getElem?_snoc_cases _ _ i e he with ⟨hi, he1⟩ | ⟨_, rfl⟩
        · exact hold _ i e hi he1 hes
        · exact absurd hes hns
    · subst e
      have hst1 : stack1 = stack.dropWhile (closedAt st.newData r.StartTime) :=
        popLoop_dropWhile _ _ _ _ _ _ hpop
      have hlen1 : stack1.length =
          st.newData.countP (openOn (rowIndex st r : Int) r.StartTime) := by
        rw [hst1]
        exact hcount _ stack hstack r.StartTime hle
      obtain ⟨popped, hsplit, _, _, _⟩ := popLoop_spec _ _ _ _ _ _ hpop
      have hv1 : ∀ i ∈ stack1, i < st.newData.length := fun i hi =>
        stack_index_lt hstk hstack i (by rw [hsplit]; exact List.mem_append_right _ hi)
      have hxe : (placedEvent st r stack1.length).EndTime = r.EndTime := rfl
      have hxs : (placedEvent st r stack1.length).StartType = "START" := hs
      have hxi : (placedEvent st r stack1.length).ThreadIndex = (rowIndex st r : Int) := rfl
      refine ⟨?_, ?_⟩
      · intro tj stack2 h s hsall
        have hs_pre : ∀ x ∈ pre, x.StartTime ≤ s :=
          fun x hx => hsall x (List.mem_append_left _ hx)
        have hs_r : r.StartTime ≤ s := hsall r (by simp)
        show (stack2.dropWhile
            (closedAt (st.newData ++ [placedEvent st r stack1.length]) s)).length =
          (st.newData ++ [placedEvent st r stack1.length]).countP (openOn (tj : Int) s)
        rw [List.countP_append, List.countP_singleton]
        rcases threadStacks_set_cases h with ⟨rfl, rfl⟩ | ⟨hne, hold2⟩
        · by_cases hend : r.EndTime ≤ s
          · have hcl : closedAt (st.newData ++ [placedEvent st r stack1.length]) s
                st.newData.length = true := by
              simp [closedAt, hxe, hend]
            have hno : openOn (rowIndex st r : Int) s (placedEvent st r stack1.length)
                = false := by
              simp [openOn, hxe, hend]
            rw [List.dropWhile_cons_of_pos hcl, hno,
              dropWhile_congr_mem stack1 (fun i hi => closedAt_append _ _ _ (hv1 i hi)), hst1,
              dropWhile_dropWhile_imp (closedAt_mono st.newData hs_r)]
            simp only [Bool.false_eq_true, if_false, Nat.add_zero]
            exact hcount _ stack hstack s hs_pre
          · have hlt : s < r.EndTime := lt_of_not_le hend
            have hcl : ¬ closedAt (st.newData ++ [placedEvent st r stack1.length]) s
                st.newData.length = true := by
              simp [closedAt, hxe, hlt]
            have hyes : openOn (rowIndex st r : Int) s (placedEvent st r stack1.length)
                = true := by
              simp [openOn, hxe, hxs, hxi, hlt]
            rw [List.dropWhile_cons_of_neg hcl, hyes]
            simp only [List.length_cons, if_true]
            rw [hlen1]
            congr 1
            apply List.countP_congr
            intro y hy
            have hyrow : y.toRow ∈ pre := by
              rw [← hrows]
              exact List.mem_map_of_mem _ hy
            simp only [openOn, decide_eq_true_eq]
            constructor
            · rintro ⟨h1, h2, h3⟩
              refine ⟨h1, h2, ?_⟩
              have hth : y.ThreadID = r.ThreadID := same_thread_of_index r htab hy h2
              rcases hnest1.2.2 y.toRow hyrow r (List.mem_singleton_self r) h1 hs hth with h4 | h4
              · exact absurd h3 (not_lt.mpr h4)
              · exact lt_of_lt_of_le hlt h4
            · rintro ⟨h1, h2, h3⟩
              exact ⟨h1, h2, lt_of_le_of_lt hs_r h3⟩
        · have hno : openOn (tj : Int) s (placedEvent st r stack1.length) = false := by
            have : ¬ ((rowIndex st r : Int) = (tj : Int)) := by
              intro h
              exact hne (by exact_mod_cast h.symm)
            simp [openOn, hxi, this]
          rw [hdw _ tj stack2 s hold2, hno]
          simp only [Bool.false_eq_true, if_false, Nat.add_zero]
          exact hcount tj stack2 hold2 s hs_pre
      · intro i e he hes
        rcases getElem?_snoc_cases _ _ i e he with ⟨hi, he1⟩ | ⟨rfl, rfl⟩
        · exact hold _ i e hi he1 hes
        · rw [List.take_left' rfl]
          show ((stack1.length : Nat) : Int) = _
          rw [hlen1]
          rfl
    · exact absurd (mergeDecision_merge hmd).1 (not_lt.mpr hc)

theorem threadIndex_eq_iff {rows : List Row} {st : PassState} {a e : Event}
    (htab : TableInv rows st) (ha : a ∈ st.newData) (he : e ∈ st.newData) :
    a.ThreadIndex = e.ThreadIndex ↔ a.ThreadID = e.ThreadID := by
  constructor
  · exact same_thread_events htab ha he
  · intro h
    rw [(htab.2 a ha).2, (htab.2 e he).2, h]

/-- C3, as the code has it: in canonical order, with coalescing disabled and with
the stack-participating rows of each thread properly nested, the depth of every
stack-participating event is the number of earlier stack-participating rows of
its thread that are still open at its start. -/
theorem C3_depth_open_ancestors (canMerge : Event → Event → Time → Bool) (coalesce : Time)
    (n : Nat) (rows : List Row) (hc : coalesce ≤ 0) (hfit : threadsFit n rows)
    (hcan : canonicalOrder rows) (hnest : properlyNested rows) :
    ∃ st, pass canMerge coalesce n rows = some st ∧
      st.newData.map Event.toRow = rows ∧
      ∀ (i : Nat) (e : Event), st.newData[i]? = some e → e.StartType = "START" →
        e.Depth = (openAncestors (rows.take i) e.toRow : Nat) := by
  obtain ⟨st, hst⟩ := pass_isSome canMerge coalesce n rows hfit
  have hrows := (noMerge_pass canMerge n hc rows st hst).1
  have htab := tableInv_pass _ _ _ _ _ hst
  refine ⟨st, hst, hrows, ?_⟩
  intro i e he hes
  rw [(depth_pass canMerge n hc rows st hst hcan hnest).2 i e he hes]
  congr 1
  unfold openAncestors
  rw [← hrows, ← List.map_take, List.countP_map]
  apply List.countP_congr
  intro x hx
  have hx1 : x ∈ st.newData := List.mem_of_mem_take hx
  have he1 : e ∈ st.newData := List.getElem?_mem he
  simp only [openOn, Function.comp, decide_eq_true_eq]
  have hiff := threadIndex_eq_iff htab hx1 he1
  constructor
  · rintro ⟨h1, h2, h3⟩
    exact ⟨h1, hiff.mp h2, h3⟩
  · rintro ⟨h1, h2, h3⟩
    exact ⟨h1, hiff.mpr h2, h3⟩

/-- C3 fails as stated: `[0,5)`, `[1,10)`, `[6,7)` on one thread are in canonical
order; at the start of the third only the second is still open, yet the third
gets depth 2, because the first, which has ended, is buried under the second. -/
theorem C3_counterexample :
    canonicalOrder rowsOverlap ∧ threadsFit 3 rowsOverlap ∧
    (pass CanMerge 0 3 rowsOverlap).map
        (fun st => st.newData.map (fun e => (e.ID, e.StartType, e.Depth))) =
      some [(1, "START", 0), (2, "START", 1), (3, "START", 2)] ∧
    openAncestors (rowsOverlap.take 2) (exampleRow 3 7 6 7 "START") = 1 := by
  refine ⟨by decide, by decide, by decide, by decide⟩

/-- C3 on scenario B: the nested intervals `[0,10)` and `[2,4)` get depths 0 and 1. -/
theorem C3_depth_open_ancestors_witness :
    ((0 : Time) ≤ 0 ∧ threadsFit 3 rowsScenarioB ∧ canonicalOrder rowsScenarioB ∧
      properlyNested rowsScenarioB) ∧
    (∃ st, pass CanMerge 0 3 rowsScenarioB = some st ∧
      st.newData.map Event.toRow = rowsScenarioB ∧
      ∀ (i : Nat) (e : Event), st.newData[i]? = some e → e.StartType = "START" →
        e.Depth = (openAncestors (rowsScenarioB.take i) e.toRow : Nat)) ∧
    (pass CanMerge 0 3 rowsScenarioB).map
        (fun st => st.newData.map (fun e => (e.StartTime, e.EndTime, e.Depth))) =
      some [(0, 10, 0), (2, 4, 1)] :=
  ⟨⟨le_refl _, by decide, by decide, by decide⟩,
   C3_depth_open_ancestors CanMerge 0 3 rowsScenarioB (le_refl _) (by decide) (by decide)
     (by decide),
   by decide⟩

/-! ## Ancestors contain their descendants -/

theorem row_closes_after {pre : List Row} {r : Row} {st : PassState} {a : Event}
    {canMerge : Event → Event → Time → Bool} {coalesce : Time} {n : Nat}
    (hpass : pass canMerge coalesce n pre = some st)
    (hnest : properlyNested (pre ++ [r])) (hs : r.StartType = "START")
    (ha : a ∈ st.newData) (hst : a.StartType = "START")
    (hidx : a.ThreadIndex = (rowIndex st r : Int)) (hopen : r.StartTime < a.EndTime) :
    r.EndTime ≤ a.EndTime := by
  obtain ⟨x, hx, h1, h2, h3⟩ := origin_pass _ _ _ _ _ hpass a ha
  have hth : a.ThreadID = r.ThreadID :=
    same_thread_of_index r (tableInv_pass _ _ _ _ _ hpass) ha hidx
  rcases (List.pairwise_append.mp hnest).2.2 x hx r (List.mem_singleton_self r)
      (h2.trans hst) hs (h1.trans hth) with h | h
  · rw [h3] at h
    exact absurd hopen (not_lt.mpr h)
  · rw [h3] at h
    exact h

/-- With properly nested, well-formed rows every event ends within its recorded
ancestor, and recorded ancestors are positions of `newData`. -/
theorem ancestor_pass (canMerge : Event → Event → Time → Bool) (coalesce : Time) (n : Nat) :
    ∀ rows st, pass canMerge coalesce n rows = some st →
      properlyNested rows → wellFormed rows →
      (∀ (i j : Nat) (d a : Event), st.parent[i]? = some (some j) →
        st.newData[i]? = some d → st.newData[j]? = some a → d.EndTime ≤ a.EndTime) ∧
      (∀ (i j : Nat), st.parent[i]? = some (some j) → j < st.newData.length) := by
  refine pass_induction canMerge coalesce n
    (fun rows st => properlyNested rows → wellFormed rows →
      (∀ (i j : Nat) (d a : Event), st.parent[i]? = some (some j) →
        st.newData[i]? = some d → st.newData[j]? = some a → d.EndTime ≤ a.EndTime) ∧
      (∀ (i j : Nat), st.parent[i]? = some (some j) → j < st.newData.length))
    ?_ ?_
  · intro _ _
    exact ⟨by simp [initState], by simp [initState]⟩
  · intro pre st r st1 hpass hP hstep hnest hwf
    have hnest1 := List.pairwise_append.mp hnest
    obtain ⟨hanc, hvalid⟩ := hP hnest1.1 (fun x hx => hwf x (List.mem_append_left _ hx))
    obtain ⟨hlen, hpar, hstk⟩ := stackInv_pass _ _ _ _ _ hpass
    have happ : ∀ (x : Event) (y : Option Nat),
        (∀ j, y = some j → ∃ a : Event, st.newData[j]? = some a ∧ x.EndTime ≤ a.EndTime) →
        (∀ (i j : Nat) (d a : Event), (st.parent ++ [y])[i]? = some (some j) →
          (st.newData ++ [x])[i]? = some d → (st.newData ++ [x])[j]? = some a →
          d.EndTime ≤ a.EndTime) ∧
        (∀ (i j : Nat), (st.parent ++ [y])[i]? = some (some j) →
          j < (st.newData ++ [x]).length) := by
      intro x y hy
      have hcase : ∀ (i j : Nat), (st.parent ++ [y])[i]? = some (some j) →
          (i < st.newData.length ∧ st.parent[i]? = some (some j)) ∨
          (i = st.newData.length ∧ y = some j) := by
        intro i j hij
        rcases getElem?_snoc_cases _ _ i _ hij with ⟨h1, h2⟩ | ⟨h1, h2⟩
        · exact Or.inl ⟨hpar ▸ h1, h2⟩
        · exact Or.inr ⟨hpar ▸ h1, h2.symm⟩
      constructor
      · intro i j d a hij hd ha
        rcases hcase i j hij with ⟨hi, hij1⟩ | ⟨hi, hyj⟩
        · have hj := hvalid i j hij1
          rw [List.getElem?_append_left hi] at hd
          rw [List.getElem?_append_left hj] at ha
          exact hanc i j d a hij1 hd ha
        · subst hi
          rw [getElem?_snoc_length] at hd
          cases hd
          obtain ⟨a1, ha1, hle⟩ := hy j hyj
          rw [getElem?_append_some _ ha1] at ha
          cases ha
          exact hle
      · intro i j hij
        rw [List.length_append, List.length_singleton]
        rcases hcase i j hij with ⟨_, hij1⟩ | ⟨_, hyj⟩
        · exact Nat.lt_succ_of_lt (hvalid i j hij1)
        · obtain ⟨a1, ha1, _⟩ := hy j hyj
          exact Nat.lt_succ_of_lt (List.getElem?_eq_some.mp ha1).1
    rcases step_cases hstep with ⟨_, e⟩ | ⟨hs, stack, stack1, prev, hstack, hpop, ⟨_, e⟩ | ⟨p, d0, hmd, hd0, e⟩⟩
    · subst e
      exact happ _ none (by simp)
    · subst e
      obtain ⟨popped, hsplit, _, hopen, _⟩ := popLoop_spec _ _ _ _ _ _ hpop
      have hok := hstk _ stack hstack
      rw [hsplit] at hok
      have hok1 := stackOK_suffix _ _ hok
      apply happ
      intro j hj
      cases hst1 : stack1 with
      | nil => rw [hst1] at hj; simp at hj
      | cons top rest =>
        rw [hst1] at hj hopen hok1
        simp only [List.head?_cons, Option.some.injEq] at hj
        subst hj
        obtain ⟨a, ha, hlt⟩ := hopen top (by simp)
        obtain ⟨⟨a1, ha1, hs1, hi1, _⟩, _, _⟩ := hok1
        rw [ha] at ha1
        cases ha1
        exact ⟨a, ha, row_closes_after hpass hnest hs (List.getElem?_mem ha) hs1 hi1 hlt⟩
    · subst e
      obtain ⟨popped, hsplit, hclosed, hopen, hprev⟩ := popLoop_spec _ _ _ _ _ _ hpop
      obtain ⟨_, hprev1, _⟩ := mergeDecision_merge hmd
      have hne : popped ≠ [] := by
        intro hnil
        rw [hnil] at hprev
        simp only [if_true] at hprev
        rw [hprev] at hprev1
        cases hprev1
      rw [if_neg hne, hprev1] at hprev
      have hpp : popped = popped.dropLast ++ [p] :=
        (List.dropLast_append_getLast? p (by rw [← hprev]; rfl)).symm
      have hpmem : p ∈ popped := List.mem_of_getLast?_eq_some hprev.symm
      have hok := hstk _ stack hstack
      rw [hsplit, hpp, List.append_assoc] at hok
      have hok1 : StackOK st.newData st.parent (rowIndex st r) (p :: stack1) :=
        stackOK_suffix _ _ hok
      obtain ⟨dp, hdp, hdple⟩ := hclosed p hpmem
      rw [hd0] at hdp
      cases hdp
      have hp : p < st.newData.length := (List.getElem?_eq_some.mp hd0).1
      have hwr : r.StartTime ≤ r.EndTime := hwf r (by simp) hs
      have hget : ∀ (i : Nat) (x : Event),
          (st.newData.set p (Merge d0 (placedEvent st r stack1.length)))[i]? = some x →
          (i = p ∧ x.EndTime = r.EndTime) ∨ (i ≠ p ∧ st.newData[i]? = some x) := by
        intro i x hx
        rw [List.getElem?_set] at hx
        by_cases hip : p = i
        · subst hip
          simp only [if_true, hp] at hx
          cases hx
          exact Or.inl ⟨rfl, rfl⟩
        · simp only [hip, if_false] at hx
          exact Or.inr ⟨fun h => hip h.symm, hx⟩
      constructor
      · intro i j d a hij hd ha
        rcases hget i d hd with ⟨hi, hde⟩ | ⟨hi, hd1⟩ <;>
          rcases hget j a ha with ⟨hj, hae⟩ | ⟨hj, ha1⟩
        · rw [hde, hae]
        · subst hi
          rw [hde]
          have hpj : st.parent[i]? = some stack1.head? := hok1.2.1
          rw [hij] at hpj
          cases hst1 : stack1 with
          | nil => rw [hst1] at hpj; simp at hpj
          | cons top rest =>
            rw [hst1] at hpj hopen hok1
            simp only [List.head?_cons, Option.some.injEq] at hpj
            subst hpj
            obtain ⟨a2, ha2, hlt⟩ := hopen j (by simp)
            obtain ⟨⟨a3, ha3, hs3, hi3, _⟩, _, _⟩ := hok1.2.2
            rw [ha2] at ha3
            cases ha3
            rw [ha1] at ha2
            cases ha2
            exact row_closes_after hpass hnest hs (List.getElem?_mem ha1) hs3 hi3 hlt
        · subst hj
          rw [hae]
          have := hanc i j d d0 hij hd1 hd0
          exact le_trans this (le_trans hdple hwr)
        · exact hanc i j d a hij hd1 ha1
      · intro i j hij
        rw [List.length_set]
        exact hvalid i j hij

/-- C8, as the code has it: when the stack-participating rows of each thread are
properly nested and end no earlier than they start, every stack-participating
output event of depth `k + 1` has an immediate ancestor (the event on top of its
thread's stack when it was placed), which is an earlier stack-participating
output event of the same thread at depth `k` and whose end time is at least the
event's own. -/
theorem C8_ancestor_containment (canMerge : Event → Event → Time → Bool) (coalesce : Time)
    (n : Nat) (rows : List Row) (hfit : threadsFit n rows)
    (hnest : properlyNested rows) (hwf : wellFormed rows) :
    ∃ st, pass canMerge coalesce n rows = some st ∧
      ∀ (i : Nat) (d : Event) (k : Nat), st.newData[i]? = some d → d.StartType = "START" →
        d.Depth = (k : Int) + 1 →
        ∃ (j : Nat) (a : Event), st.parent[i]? = some (some j) ∧ j < i ∧
          st.newData[j]? = some a ∧ a.StartType = "START" ∧ a.ThreadID = d.ThreadID ∧
          a.Depth = (k : Int) ∧ d.EndTime ≤ a.EndTime := by
  obtain ⟨st, hst⟩ := pass_isSome canMerge coalesce n rows hfit
  refine ⟨st, hst, ?_⟩
  intro i d k hd hs hk
  rcases parent_pass _ _ _ _ _ hst i d hd hs with ⟨_, h0⟩ | ⟨j, a, h1, h2, h3, h4, h5, h6⟩
  · rw [h0] at hk
    omega
  · refine ⟨j, a, h1, h2, h3, h4, ?_, ?_, ?_⟩
    · exact same_thread_events (tableInv_pass _ _ _ _ _ hst) (List.getElem?_mem h3)
        (List.getElem?_mem hd) h5
    · omega
    · exact (ancestor_pass _ _ _ _ _ hst hnest hwf).1 i j d a h1 hd h3

/-- C8 fails as stated. In canonical order, `[0,5)` then `[1,10)` on one thread:
the second event has depth 1, its immediate ancestor is the first (depth 0), which
ends at 5, before the second ends at 10. And with properly nested rows one of
which ends before it starts (`[0,10)`, `[2,4)`, then 20 to 3, threshold 100): the
third row is merged into the first, whose end becomes 3, before its descendant
ends at 4. -/
theorem C8_counterexample :
    (canonicalOrder rowsOverlap ∧
      (pass CanMerge 0 3 rowsOverlap).map
          (fun st => (st.parent, st.newData.map (fun e => (e.Depth, e.EndTime)))) =
        some ([none, some 0, some 1], [(0, 5), (1, 10), (2, 7)])) ∧
    (canonicalOrder rowsBackwards ∧ properlyNested rowsBackwards ∧
      (pass CanMerge 100 3 rowsBackwards).map
          (fun st => (st.parent, st.newData.map (fun e => (e.Depth, e.EndTime)))) =
        some ([none, some 0], [(0, 3), (1, 4)])) := by
  refine ⟨⟨by decide, by decide⟩, by decide, by decide, ?_⟩
  with_unfolding_all decide

/-- C8 on nested intervals of two threads, with merging enabled. -/
theorem C8_ancestor_containment_witness :
    (threadsFit 3 rowsNested ∧ properlyNested rowsNested ∧ wellFormed rowsNested) ∧
    (∃ st, pass CanMerge 1 3 rowsNested = some st ∧
      ∀ (i : Nat) (d : Event) (k : Nat), st.newData[i]? = some d → d.StartType = "START" →
        d.Depth = (k : Int) + 1 →
        ∃ (j : Nat) (a : Event), st.parent[i]? = some (some j) ∧ j < i ∧
          st.newData[j]? = some a ∧ a.StartType = "START" ∧ a.ThreadID = d.ThreadID ∧
          a.Depth = (k : Int) ∧ d.EndTime ≤ a.EndTime) ∧
    (pass CanMerge 1 3 rowsNested).map
        (fun st => (st.parent, st.newData.map (fun e => (e.ID, e.Depth, e.EndTime)))) =
      some ([none, some 0, none], [(1, 0, 10), (2, 1, 6), (3, 0, 5)]) :=
  ⟨⟨by decide, by decide, by decide⟩,
   C8_ancestor_containment CanMerge 1 3 rowsNested (by decide) (by decide) (by decide),
   by with_unfolding_all decide⟩

/-! ## Independence of the threads -/

theorem rowIndex_eq_indexOf {pre : List Row} {st : PassState} (r : Row)
    (h : TableInv pre st) : rowIndex st r = List.indexOf r.ThreadID st.newVisibleThreadIDs := by
  unfold rowIndex
  rw [threadIndex_eq _ _ (by rw [h.1]; exact nodup_firstSeen _)]
  by_cases hm : r.ThreadID ∈ st.newVisibleThreadIDs
  · simp [hm]
  · simp [hm, List.indexOf_of_not_mem hm]

theorem rowIds_cases {pre : List Row} {st : PassState} (r : Row) (h : TableInv pre st) :
    (r.ThreadID ∈ st.newVisibleThreadIDs ∧ rowIds st r = st.newVisibleThreadIDs) ∨
    (r.ThreadID ∉ st.newVisibleThreadIDs ∧
      rowIds st r = st.newVisibleThreadIDs ++ [r.ThreadID]) := by
  unfold rowIds
  rw [threadIndex_eq _ _ (by rw [h.1]; exact nodup_firstSeen _)]
  by_cases hm : r.ThreadID ∈ st.newVisibleThreadIDs
  · exact Or.inl ⟨hm, by simp [hm]⟩
  · exact Or.inr ⟨hm, by simp [hm]⟩

/-- No stack beyond the thread table has entries. -/
theorem stack_empty_beyond {pre : List Row} {st : PassState} {n : Nat}
    (htab : TableInv pre st) (hstk : StackInv n st) {i : Nat} {stack : List Nat}
    (h : st.threadStacks[i]? = some stack) (hi : st.newVisibleThreadIDs.length ≤ i) :
    stack = [] := by
  cases stack with
  | nil => rfl
  | cons top rest =>
    exfalso
    obtain ⟨e, he, _, hidx⟩ := stackOK_mem _ (hstk.2.2 i _ h) top (List.mem_cons_self _ _)
    obtain ⟨h1, h2⟩ := htab.2 e (List.getElem?_mem he)
    rw [h2] at hidx
    have hlt : List.indexOf e.ThreadID (firstSeen (pre.map (fun x => x.ThreadID))) <
        (firstSeen (pre.map (fun x => x.ThreadID))).length :=
      List.indexOf_lt_length.mpr (mem_firstSeen.mpr h1)
    rw [← htab.1] at hlt
    have : List.indexOf e.ThreadID st.newVisibleThreadIDs = i := by
      rw [htab.1]
      exact_mod_cast hidx
    omega

theorem stackOf_empty_beyond {pre : List Row} {st : PassState} {n : Nat}
    (htab : TableInv pre st) (hstk : StackInv n st) {i : Nat}
    (hi : st.newVisibleThreadIDs.length ≤ i) : stackOf st i = [] := by
  unfold stackOf
  cases h : st.threadStacks[i]? with
  | none => rfl
  | some stack => exact stack_empty_beyond htab hstk h hi

theorem rank_append (t : Int) (nd : List Event) (x : Event) {i : Nat} (h : i ≤ nd.length) :
    rank t (nd ++ [x]) i = rank t nd i := by
  unfold rank
  rw [List.take_append_of_le_length h]

theorem rank_length (t : Int) (nd : List Event) :
    rank t nd nd.length = (nd.filter (selEvent t)).length := by
  unfold rank
  rw [List.take_length, List.countP_eq_length_filter]

theorem countP_take_set {α : Type} (P : α → Bool) (x : α) :
    ∀ (l : List α) (p : Nat) (d : α) (i : Nat), l[p]? = some d → P d = P x →
      ((l.set p x).take i).countP P = (l.take i).countP P
  | [], _, _, _, h, _ => by simp at h
  | a :: l, 0, d, i, h, hP => by
    simp only [List.getElem?_cons_zero, Option.some.injEq] at h
    subst h
    cases i with
    | zero => rfl
    | succ i => simp [List.countP_cons, hP]
  | a :: l, p + 1, d, i, h, hP => by
    simp only [List.getElem?_cons_succ] at h
    cases i with
    | zero => rfl
    | succ i =>
      simp only [List.set_cons_succ, List.take_succ_cons, List.countP_cons]
      rw [countP_take_set P x l p d i h hP]

theorem rank_set (t : Int) {nd : List Event} {p : Nat} {d : Event} (x : Event)
    (hd : nd[p]? = some d) (hsel : selEvent t d = selEvent t x) (i : Nat) :
    rank t (nd.set p x) i = rank t nd i :=
  countP_take_set (selEvent t) x nd p d i hd hsel

theorem getElem?_filter_countP {α : Type} (P : α → Bool) :
    ∀ (l : List α) (i : Nat) (e : α), l[i]? = some e → P e = true →
      (l.filter P)[(l.take i).countP P]? = some e
  | [], _, _, h, _ => by simp at h
  | a :: l, 0, e, h, hP => by
    simp only [List.getElem?_cons_zero, Option.some.injEq] at h
    subst h
    simp [List.filter_cons, hP]
  | a :: l, i + 1, e, h, hP => by
    simp only [List.getElem?_cons_succ] at h
    have ih := getElem?_filter_countP P l i e h hP
    by_cases ha : P a = true
    · simp [List.filter_cons, ha, List.countP_cons, ih]
    · simp [List.filter_cons, ha, List.countP_cons, ih]

theorem filter_set_of_pos {α : Type} (P : α → Bool) (x : α) (hx : P x = true) :
    ∀ (l : List α) (p : Nat) (d : α), l[p]? = some d → P d = true →
      (l.set p x).filter P = (l.filter P).set ((l.take p).countP P) x
  | [], _, _, h, _ => by simp at h
  | a :: l, 0, d, h, hd => by
    simp only [List.getElem?_cons_zero, Option.some.injEq] at h
    subst h
    simp [List.filter_cons, hx, hd]
  | a :: l, p + 1, d, h, hd => by
    simp only [List.getElem?_cons_succ] at h
    have ih := filter_set_of_pos P x hx l p d h hd
    by_cases ha : P a = true
    · simp [List.filter_cons, ha, List.countP_cons, ih]
    · simp [List.filter_cons, ha, List.countP_cons, ih]

theorem popLoop_map (nd nd1 : List Event) (s : Time) (f : Nat → Nat) :
    ∀ (stack : List Nat) (prev : Option Nat) (s1 : List Nat) (p1 : Option Nat),
      (∀ i ∈ stack, ∃ e e1 : Event, nd[i]? = some e ∧ nd1[f i]? = some e1 ∧
        e1.EndTime = e.EndTime) →
      popLoop nd s stack prev = some (s1, p1) →
      popLoop nd1 s (stack.map f) (prev.map f) = some (s1.map f, p1.map f)
  | [], prev, s1, p1, _, h => by
    simp only [popLoop, Option.some.injEq, Prod.mk.injEq] at h
    obtain ⟨h1, h2⟩ := h
    subst h1 h2
    rfl
  | top :: rest, prev, s1, p1, hv, h => by
    obtain ⟨e, e1, he, he1, hend⟩ := hv top (List.mem_cons_self _ _)
    rw [popLoop] at h
    simp only [he] at h
    rw [List.map_cons, popLoop]
    simp only [he1, hend]
    by_cases hopen : e.EndTime > s
    · simp only [hopen, if_true, Option.some.injEq, Prod.mk.injEq] at h ⊢
      obtain ⟨h1, h2⟩ := h
      subst h1 h2
      exact ⟨rfl, rfl⟩
    · simp only [hopen, if_false] at h ⊢
      exact popLoop_map nd nd1 s f rest (some top) s1 p1
        (fun i hi => hv i (List.mem_cons_of_mem _ hi)) h

theorem mergeDecision_map {canMerge : Event → Event → Time → Bool} {coalesce : Time}
    {nd nd1 : List Event} {prev : Option Nat} {evt evt1 : Event} {dec : Option Nat}
    (f : Nat → Nat)
    (hv : ∀ p, prev = some p → ∃ d d1 : Event, nd[p]? = some d ∧ nd1[f p]? = some d1 ∧
      canMerge d1 evt1 coalesce = canMerge d evt coalesce)
    (h : mergeDecision canMerge coalesce nd prev evt = some dec) :
    mergeDecision canMerge coalesce nd1 (prev.map f) evt1 = some (dec.map f) := by
  unfold mergeDecision at h ⊢
  by_cases hc : coalesce > 0
  · simp only [hc, if_true] at h ⊢
    cases prev with
    | none =>
      simp only [Option.some.injEq] at h
      subst h
      rfl
    | some p =>
      obtain ⟨d, d1, hd, hd1, hcm⟩ := hv p rfl
      simp only [hd] at h
      simp only [Option.map_some', hd1, hcm]
      by_cases hm : canMerge d evt coalesce = true
      · simp only [hm, if_true, Option.some.injEq] at h ⊢
        subst h
        rfl
      · rw [Bool.not_eq_true] at hm
        simp only [hm, Bool.false_eq_true, if_false, Option.some.injEq] at h ⊢
        subst h
        rfl
  · simp only [hc, if_false, Option.some.injEq] at h ⊢
    subst h
    rfl

theorem step_append_of {canMerge : Event → Event → Time → Bool} {coalesce : Time}
    {st : PassState} {r : Row} {stack stack1 : List Nat} {prev : Option Nat}
    (hs : r.StartType = "START")
    (hstack : st.threadStacks[rowIndex st r]? = some stack)
    (hpop : popLoop st.newData r.StartTime stack none = some (stack1, prev))
    (hmd : mergeDecision canMerge coalesce st.newData prev (placedEvent st r stack1.length)
      = some none) :
    step canMerge coalesce st r =
      some { newData := st.newData ++ [placedEvent st r stack1.length],
             newVisibleThreadIDs := rowIds st r,
             threadStacks := st.threadStacks.set (rowIndex st r) (st.newData.length :: stack1),
             parent := st.parent ++ [stack1.head?],
             mergeLog := st.mergeLog } := by
  have hty : (rowEvent st r).StartType = r.StartType := rfl
  have htm : (rowEvent st r).StartTime = r.StartTime := rfl
  unfold step
  rw [hty, if_pos hs]
  unfold startStep
  rw [htm]
  simp only [hstack, hpop, hmd]

theorem step_merge_of {canMerge : Event → Event → Time → Bool} {coalesce : Time}
    {st : PassState} {r : Row} {stack stack1 : List Nat} {prev : Option Nat} {p : Nat}
    {d : Event} (hs : r.StartType = "START")
    (hstack : st.threadStacks[rowIndex st r]? = some stack)
    (hpop : popLoop st.newData r.StartTime stack none = some (stack1, prev))
    (hmd : mergeDecision canMerge coalesce st.newData prev (placedEvent st r stack1.length)
      = some (some p))
    (hd : st.newData[p]? = some d) :
    step canMerge coalesce st r =
      some { newData := st.newData.set p (Merge d (placedEvent st r stack1.length)),
             newVisibleThreadIDs := rowIds st r,
             threadStacks := st.threadStacks.set (rowIndex st r) (p :: stack1),
             parent := st.parent,
             mergeLog := st.mergeLog ++ [p] } := by
  have hty : (rowEvent st r).StartType = r.StartType := rfl
  have htm : (rowEvent st r).StartTime = r.StartTime := rfl
  unfold step
  rw [hty, if_pos hs]
  unfold startStep
  rw [htm]
  simp only [hstack, hpop, hmd, hd]

theorem indexOf_firstSeen_const {t : Int} {l : List Int} (h : ∀ x ∈ l, x = t) :
    List.indexOf t (firstSeen l) = 0 := by
  cases hfs : firstSeen l with
  | nil => rfl
  | cons a rest =>
    have ha : a ∈ firstSeen l := by rw [hfs]; exact List.mem_cons_self _ _
    have : a = t := h a (mem_firstSeen.mp ha)
    rw [this]
    exact List.indexOf_cons_self _ _

theorem stackOf_set_ne (st : PassState) {i j : Nat} (s : List Nat) (h : i ≠ j) :
    ((st.threadStacks.set i s)[j]?).getD [] = stackOf st j := by
  unfold stackOf
  rw [List.getElem?_set_ne h]

theorem stackOf_set_self (st : PassState) {i : Nat} (s : List Nat)
    (h : i < st.threadStacks.length) : ((st.threadStacks.set i s)[i]?).getD [] = s := by
  rw [List.getElem?_set_self h]
  rfl

/-- A row that is not a stack-participating row of thread `t` leaves the stack of
thread `t` as it is. -/
theorem threadStack_unchanged {pre : List Row} {st : PassState} {n : Nat}
    (t : Int) (st1 : PassState) (r : Row) (htab : TableInv pre st) (hstk : StackInv n st)
    (hids : st1.newVisibleThreadIDs = rowIds st r)
    (hstacks : st1.threadStacks = st.threadStacks ∨
      (r.ThreadID ≠ t ∧ ∃ s, st1.threadStacks = st.threadStacks.set (rowIndex st r) s)) :
    stackOf st1 (List.indexOf t st1.newVisibleThreadIDs) =
      stackOf st (List.indexOf t st.newVisibleThreadIDs) := by
  have hB : stackOf st (List.indexOf t st1.newVisibleThreadIDs) =
      stackOf st (List.indexOf t st.newVisibleThreadIDs) := by
    rw [hids]
    rcases rowIds_cases r htab with ⟨_, h⟩ | ⟨_, h⟩
    · rw [h]
    · rw [h]
      by_cases ht : t ∈ st.newVisibleThreadIDs
      · rw [List.indexOf_append_of_mem ht]
      · rw [List.indexOf_append_of_not_mem ht, List.indexOf_of_not_mem ht,
          stackOf_empty_beyond htab hstk (Nat.le_add_right _ _),
          stackOf_empty_beyond htab hstk (le_refl _)]
  rw [← hB]
  rcases hstacks with h | ⟨hne, s, h⟩
  · unfold stackOf
    rw [h]
  · have hidx : rowIndex st r ≠ List.indexOf t st1.newVisibleThreadIDs := by
      rw [hids, rowIndex_eq r htab, rowIds_eq r htab]
      have hr : r.ThreadID ∈ firstSeen ((pre ++ [r]).map (fun x => x.ThreadID)) :=
        mem_firstSeen.mpr (by simp)
      by_cases ht : t ∈ firstSeen ((pre ++ [r]).map (fun x => x.ThreadID))
      · intro heq
        exact hne ((List.indexOf_inj hr ht).mp heq)
      · rw [List.indexOf_of_not_mem ht]
        exact Nat.ne_of_lt (List.indexOf_lt_length.mpr hr)
    show ((st1.threadStacks)[List.indexOf t st1.newVisibleThreadIDs]?).getD [] = _
    rw [h]
    exact stackOf_set_ne st s hidx

theorem stackOf_index_lt {n : Nat} {st : PassState} (hstk : StackInv n st) (j : Nat) :
    ∀ i ∈ stackOf st j, i < st.newData.length := by
  intro i hi
  unfold stackOf at hi
  cases h : st.threadStacks[j]? with
  | none => simp [h] at hi
  | some stack =>
    rw [h] at hi
    exact stack_index_lt hstk h i hi

theorem stackOf_init (n i : Nat) : stackOf (initState n) i = [] := by
  unfold stackOf
  cases h : (initState n).threadStacks[i]? with
  | none => rfl
  | some stack =>
    have : stack ∈ List.replicate n ([] : List Nat) := List.getElem?_mem h
    rw [List.eq_of_mem_replicate this]
    rfl

theorem sim_lookup {t : Int} {st st1 : PassState}
    (h : (st.newData.filter (selEvent t)).map clearIndex = st1.newData) {i : Nat} {e : Event}
    (he : st.newData[i]? = some e) (hsel : selEvent t e = true) :
    st1.newData[rank t st.newData i]? = some (clearIndex e) := by
  rw [← h, List.getElem?_map]
  unfold rank
  rw [getElem?_filter_countP (selEvent t) st.newData i e he hsel]
  rfl

/-- A row that is not a stack-participating row of thread `t` keeps the relation
with the pass over the rows of thread `t`. -/
theorem sim_step_other {canMerge : Event → Event → Time → Bool} {coalesce : Time} {n : Nat}
    {t : Int} {pre : List Row} {st st1 st2 : PassState} {r : Row}
    (hpass : pass canMerge coalesce n pre = some st)
    (hstep : step canMerge coalesce st r = some st2)
    (hsel : selRow t r = false) (hsim : Sim t st st1) : Sim t st2 st1 := by
  have htab := tableInv_pass _ _ _ _ _ hpass
  have hstk := stackInv_pass _ _ _ _ _ hpass
  obtain ⟨hR1, hR2⟩ := hsim
  have hrank : ∀ (nd2 : List Event), (∀ i, i < st.newData.length →
        rank t nd2 i = rank t st.newData i) →
      (stackOf st (List.indexOf t st.newVisibleThreadIDs)).map (rank t nd2) =
        (stackOf st (List.indexOf t st.newVisibleThreadIDs)).map (rank t st.newData) := by
    intro nd2 h
    apply List.map_congr_left
    intro i hi
    exact h i (stackOf_index_lt hstk _ i hi)
  have hrow : ¬ (r.StartType = "START" ∧ r.ThreadID = t) := by
    simpa [selRow] using hsel
  rcases step_cases hstep with ⟨hns, e⟩ | ⟨hs, stack, stack1, prev, hstack, hpop, ⟨_, e⟩ | ⟨p, d, hmd, hd, e⟩⟩
  · have hT := threadStack_unchanged t st2 r htab hstk (by rw [e]) (Or.inl (by rw [e]))
    subst e
    have hno : selEvent t (rowEvent st r) = false := by
      have : (rowEvent st r).StartType = r.StartType := rfl
      simp [selEvent, this, hns]
    constructor
    · show ((st.newData ++ [rowEvent st r]).filter (selEvent t)).map clearIndex = _
      rw [List.filter_append]
      simp [List.filter_cons, hno, hR1]
    · show stackOf st1 0 = (stackOf _ (List.indexOf t (rowIds st r))).map
        (rank t (st.newData ++ [rowEvent st r]))
      rw [hT, hrank _ (fun i hi => rank_append t _ _ (le_of_lt hi))]
      exact hR2
  · have hne : r.ThreadID ≠ t := fun h => hrow ⟨hs, h⟩
    have hT := threadStack_unchanged t st2 r htab hstk (by rw [e])
      (Or.inr ⟨hne, _, by rw [e]⟩)
    subst e
    have hno : selEvent t (placedEvent st r stack1.length) = false := by
      have : (placedEvent st r stack1.length).ThreadID = r.ThreadID := rfl
      simp [selEvent, this, hne]
    constructor
    · show ((st.newData ++ [placedEvent st r stack1.length]).filter (selEvent t)).map
        clearIndex = _
      rw [List.filter_append]
      simp [List.filter_cons, hno, hR1]
    · show stackOf st1 0 = (stackOf _ (List.indexOf t (rowIds st r))).map
        (rank t (st.newData ++ [placedEvent st r stack1.length]))
      rw [hT, hrank _ (fun i hi => rank_append t _ _ (le_of_lt hi))]
      exact hR2
  · have hne : r.ThreadID ≠ t := fun h => hrow ⟨hs, h⟩
    have hT := threadStack_unchanged t st2 r htab hstk (by rw [e])
      (Or.inr ⟨hne, _, by rw [e]⟩)
    subst e
    obtain ⟨_, hprev, _⟩ := mergeDecision_merge hmd
    subst hprev
    obtain ⟨d1, hd1, _, hdi⟩ :=
      stackOK_mem _ (hstk.2.2 _ _ hstack) p (popLoop_prev_mem hpop)
    rw [hd] at hd1
    cases hd1
    have hdt : d.ThreadID = r.ThreadID :=
      same_thread_of_index r htab (List.getElem?_mem hd) hdi
    have hnd : selEvent t d = false := by
      simp [selEvent, hdt, hne]
    have hnm : selEvent t (Merge d (placedEvent st r stack1.length)) = false := by
      have : (Merge d (placedEvent st r stack1.length)).ThreadID = d.ThreadID := rfl
      simp [selEvent, this, hdt, hne]
    constructor
    · show ((st.newData.set p (Merge d (placedEvent st r stack1.length))).filter
        (selEvent t)).map clearIndex = _
      rw [filter_set_of_not (selEvent t) _ hnm st.newData p d hd hnd]
      exact hR1
    · show stackOf st1 0 = (stackOf _ (List.indexOf t (rowIds st r))).map
        (rank t (st.newData.set p (Merge d (placedEvent st r stack1.length))))
      rw [hT, hrank _ (fun i _ => rank_set t _ hd (hnd.trans hnm.symm) i)]
      exact hR2

theorem clearIndex_Merge (d e : Event) :
    clearIndex (Merge d e) = Merge (clearIndex d) (clearIndex e) := rfl

theorem selEvent_clearIndex (t : Int) (e : Event) :
    selEvent t (clearIndex e) = selEvent t e := rfl

/-- A stack-participating row of thread `t` is processed in the same way by the
pass over the whole stream and by the pass over the rows of thread `t`. -/
theorem sim_step_same {canMerge : Event → Event → Time → Bool} {coalesce : Time} {n : Nat}
    {t : Int} {pre pre1 : List Row} {st st1 st2 : PassState} {r : Row}
    (hcm : ∀ a b th, a.ThreadIndex = b.ThreadIndex →
      canMerge (clearIndex a) (clearIndex b) th = canMerge a b th)
    (hpass : pass canMerge coalesce n pre = some st)
    (hpass1 : pass canMerge coalesce n pre1 = some st1)
    (hpre1 : ∀ x ∈ pre1, x.ThreadID = t)
    (hstep : step canMerge coalesce st r = some st2)
    (hs : r.StartType = "START") (ht : r.ThreadID = t) (hsim : Sim t st st1) :
    ∃ st3, step canMerge coalesce st1 r = some st3 ∧ Sim t st2 st3 := by
  have htab := tableInv_pass _ _ _ _ _ hpass
  have hstk := stackInv_pass _ _ _ _ _ hpass
  have htab1 := tableInv_pass _ _ _ _ _ hpass1
  have hstk1 := stackInv_pass _ _ _ _ _ hpass1
  have htab2 := tableInv_step htab hstep
  obtain ⟨hR1, hR2⟩ := hsim
  rcases step_cases hstep with ⟨hns, _⟩ | ⟨_, stack, stack1, prev, hstack, hpop, hres⟩
  · exact absurd hs hns
  have hidx : List.indexOf t st.newVisibleThreadIDs = rowIndex st r := by
    rw [rowIndex_eq_indexOf r htab, ht]
  have hidx2 : List.indexOf t (rowIds st r) = rowIndex st r := by
    rw [rowIndex_eq r htab, rowIds_eq r htab, ht]
  have hlt : rowIndex st r < st.threadStacks.length := (List.getElem?_eq_some.mp hstack).1
  have hstackOf : stackOf st (List.indexOf t st.newVisibleThreadIDs) = stack := by
    unfold stackOf
    rw [hidx, hstack]
    rfl
  rw [hstackOf] at hR2
  have hn : 0 < st1.threadStacks.length := by
    rw [hstk1.1, ← hstk.1]
    exact Nat.lt_of_le_of_lt (Nat.zero_le _) hlt
  have h0 : rowIndex st1 r = 0 := by
    rw [rowIndex_eq_indexOf r htab1, htab1.1, ht]
    apply indexOf_firstSeen_const
    intro x hx
    obtain ⟨y, hy, rfl⟩ := List.mem_map.mp hx
    exact hpre1 y hy
  have hids1 : List.indexOf t (rowIds st1 r) = 0 := by
    rw [rowIds_eq r htab1]
    apply indexOf_firstSeen_const
    intro x hx
    obtain ⟨y, hy, rfl⟩ := List.mem_map.mp hx
    rcases List.mem_append.mp hy with hy | hy
    · exact hpre1 y hy
    · rw [List.mem_singleton] at hy
      rw [hy]
      exact ht
  have hstack1 : st1.threadStacks[rowIndex st1 r]? = some (stack.map (rank t st.newData)) := by
    rw [h0, ← hR2]
    unfold stackOf
    rw [List.getElem?_eq_getElem hn]
    rfl
  have hlook : ∀ i ∈ stack, ∃ e : Event, st.newData[i]? = some e ∧
      e.ThreadIndex = (rowIndex st r : Int) ∧
      st1.newData[rank t st.newData i]? = some (clearIndex e) := by
    intro i hi
    obtain ⟨e, he, hes, hei⟩ := stackOK_mem _ (hstk.2.2 _ _ hstack) i hi
    have hth : e.ThreadID = t :=
      (same_thread_of_index r htab (List.getElem?_mem he) hei).trans ht
    have hsel : selEvent t e = true := by simp [selEvent, hes, hth]
    exact ⟨e, he, hei, sim_lookup hR1 he hsel⟩
  have hpop1 : popLoop st1.newData r.StartTime (stack.map (rank t st.newData)) none =
      some (stack1.map (rank t st.newData), prev.map (rank t st.newData)) := by
    have := popLoop_map st.newData st1.newData r.StartTime (rank t st.newData) stack none
      stack1 prev (fun i hi => by
        obtain ⟨e, he, _, he1⟩ := hlook i hi
        exact ⟨e, clearIndex e, he, he1, rfl⟩) hpop
    exact this
  have hpe : placedEvent st1 r (stack1.map (rank t st.newData)).length =
      clearIndex (placedEvent st r stack1.length) := by
    unfold placedEvent rowEvent
    rw [h0, List.length_map]
    rfl
  have hsel : selEvent t (placedEvent st r stack1.length) = true := by
    have h1 : (placedEvent st r stack1.length).StartType = r.StartType := rfl
    have h2 : (placedEvent st r stack1.length).ThreadID = r.ThreadID := rfl
    simp [selEvent, h1, h2, hs, ht]
  obtain ⟨popped, hsplit, _, _, _⟩ := popLoop_spec _ _ _ _ _ _ hpop
  have hv1 : ∀ i ∈ stack1, i < st.newData.length := fun i hi =>
    stack_index_lt hstk hstack i (by rw [hsplit]; exact List.mem_append_right _ hi)
  have hprevlook : ∀ p, prev = some p → ∃ d d1 : Event, st.newData[p]? = some d ∧
      st1.newData[rank t st.newData p]? = some d1 ∧ d1 = clearIndex d ∧
      canMerge d1 (placedEvent st1 r (stack1.map (rank t st.newData)).length) coalesce =
        canMerge d (placedEvent st r stack1.length) coalesce := by
    intro p hp
    subst hp
    obtain ⟨d, hd, hdi, hd1⟩ := hlook p (popLoop_prev_mem hpop)
    refine ⟨d, clearIndex d, hd, hd1, rfl, ?_⟩
    rw [hpe]
    exact hcm d _ coalesce hdi
  rcases hres with ⟨hmd, e⟩ | ⟨p, d, hmd, hd, e⟩
  · have hmd1 := mergeDecision_map (rank t st.newData)
      (fun p hp => by
        obtain ⟨d, d1, h1, h2, _, h4⟩ := hprevlook p hp
        exact ⟨d, d1, h1, h2, h4⟩) hmd
    refine ⟨_, step_append_of hs hstack1 hpop1 hmd1, ?_⟩
    subst e
    constructor
    · show ((st.newData ++ [placedEvent st r stack1.length]).filter (selEvent t)).map
        clearIndex = st1.newData ++ [placedEvent st1 r (stack1.map (rank t st.newData)).length]
      rw [List.filter_append, hpe, ← hR1]
      simp [List.filter_cons, hsel]
    · show ((st1.threadStacks.set (rowIndex st1 r)
          (st1.newData.length :: stack1.map (rank t st.newData)))[0]?).getD [] =
        (((st.threadStacks.set (rowIndex st r) (st.newData.length :: stack1))[
          List.indexOf t (rowIds st r)]?).getD []).map
            (rank t (st.newData ++ [placedEvent st r stack1.length]))
      rw [hidx2, h0, stackOf_set_self st1 _ hn, stackOf_set_self st _ hlt, List.map_cons,
        rank_append t _ _ (le_refl _), rank_length, ← hR1, List.length_map]
      congr 1
      apply List.map_congr_left
      intro i hi
      exact (rank_append t _ _ (le_of_lt (hv1 i hi))).symm
  · obtain ⟨_, hprev, _⟩ := mergeDecision_merge hmd
    obtain ⟨d0, d1, h1, h2, h3, _⟩ := hprevlook p hprev
    rw [hd] at h1
    cases h1
    subst h3
    have hmd1 := mergeDecision_map (rank t st.newData)
      (fun q hq => by
        obtain ⟨x, x1, g1, g2, _, g4⟩ := hprevlook q hq
        exact ⟨x, x1, g1, g2, g4⟩) hmd
    refine ⟨_, step_merge_of hs hstack1 hpop1 hmd1 h2, ?_⟩
    subst e
    obtain ⟨dd, hdd, hds, hdi⟩ := stackOK_mem _ (hstk.2.2 _ _ hstack) p
      (popLoop_prev_mem (hprev ▸ hpop))
    rw [hd] at hdd
    cases hdd
    have hth : d.ThreadID = t :=
      (same_thread_of_index r htab (List.getElem?_mem hd) hdi).trans ht
    have hseld : selEvent t d = true := by simp [selEvent, hds, hth]
    have hselm : selEvent t (Merge d (placedEvent st r stack1.length)) = true := hseld
    constructor
    · show ((st.newData.set p (Merge d (placedEvent st r stack1.length))).filter
          (selEvent t)).map clearIndex =
        st1.newData.set (rank t st.newData p)
          (Merge (clearIndex d) (placedEvent st1 r (stack1.map (rank t st.newData)).length))
      rw [filter_set_of_pos (selEvent t) _ hselm st.newData p d hd hseld, List.map_set, hR1,
        hpe, clearIndex_Merge]
      rfl
    · show ((st1.threadStacks.set (rowIndex st1 r)
          (rank t st.newData p :: stack1.map (rank t st.newData)))[0]?).getD [] =
        (((st.threadStacks.set (rowIndex st r) (p :: stack1))[
          List.indexOf t (rowIds st r)]?).getD []).map
            (rank t (st.newData.set p (Merge d (placedEvent st r stack1.length))))
      rw [hidx2, h0, stackOf_set_self st1 _ hn, stackOf_set_self st _ hlt]
      rw [← List.map_cons]
      apply List.map_congr_left
      intro i _
      exact (rank_set t _ hd (hseld.trans hselm.symm) i).symm

theorem sim_pass (canMerge : Event → Event → Time → Bool) (coalesce : Time) (n : Nat)
    (t : Int)
    (hcm : ∀ a b th, a.ThreadIndex = b.ThreadIndex →
      canMerge (clearIndex a) (clearIndex b) th = canMerge a b th) :
    ∀ rows st, pass canMerge coalesce n rows = some st →
      ∃ st1, pass canMerge coalesce n (rows.filter (selRow t)) = some st1 ∧ Sim t st st1 := by
  refine pass_induction canMerge coalesce n
    (fun rows st => ∃ st1, pass canMerge coalesce n (rows.filter (selRow t)) = some st1 ∧
      Sim t st st1) ?_ ?_
  · refine ⟨initState n, rfl, rfl, ?_⟩
    rw [stackOf_init, stackOf_init]
    rfl
  · intro pre st r st2 hpass hP hstep
    obtain ⟨st1, hp1, hsim⟩ := hP
    rw [List.filter_append]
    by_cases hsel : selRow t r = true
    · have hrow : r.StartType = "START" ∧ r.ThreadID = t := by
        simpa [selRow] using hsel
      have hpre1 : ∀ x ∈ pre.filter (selRow t), x.ThreadID = t := by
        intro x hx
        have := (List.mem_filter.mp hx).2
        simp only [selRow, decide_eq_true_eq] at this
        exact this.2
      obtain ⟨st3, h3, hsim3⟩ :=
        sim_step_same hcm hpass hp1 hpre1 hstep hrow.1 hrow.2 hsim
      refine ⟨st3, ?_, hsim3⟩
      have : List.filter (selRow t) [r] = [r] := by simp [List.filter_cons, hsel]
      rw [this, pass_snoc, hp1]
      exact h3
    · rw [Bool.not_eq_true] at hsel
      have : List.filter (selRow t) [r] = [] := by simp [List.filter_cons, hsel]
      rw [this, List.append_nil]
      exact ⟨st1, hp1, sim_step_other hpass hstep hsel hsim⟩

/-- C10: reconstruction is independent per thread and unaffected by bookmarks. For
a merge test that does not depend on the thread index, the stack-participating
events of thread `t` that the pass produces from a stream are, in pass order and
with the thread index left out, those it produces from the stream reduced to the
stack-participating rows of thread `t`. -/
theorem C10_thread_independence (canMerge : Event → Event → Time → Bool) (coalesce : Time)
    (n : Nat) (rows : List Row) (t : Int) (hfit : threadsFit n rows)
    (hcm : ∀ a b th, a.ThreadIndex = b.ThreadIndex →
      canMerge (clearIndex a) (clearIndex b) th = canMerge a b th) :
    ∃ st st1, pass canMerge coalesce n rows = some st ∧
      pass canMerge coalesce n (rows.filter (selRow t)) = some st1 ∧
      (st.newData.filter (selEvent t)).map clearIndex =
        (st1.newData.filter (selEvent t)).map clearIndex := by
  obtain ⟨st, hst⟩ := pass_isSome canMerge coalesce n rows hfit
  obtain ⟨st1, hst1, hR1, _⟩ := sim_pass canMerge coalesce n t hcm rows st hst
  refine ⟨st, st1, hst, hst1, ?_⟩
  rw [← hR1, List.filter_map, List.map_map]
  have hcomp : selEvent t ∘ clearIndex = selEvent t := by
    funext e
    exact selEvent_clearIndex t e
  have hcc : clearIndex ∘ clearIndex = clearIndex := by
    funext e
    rfl
  rw [hcomp, hcc, List.filter_filter]
  simp

/-- C10 on two interleaved threads with bookmarks and a merge: thread 7 comes out
as `[1,10)` at depth 0 and `[3,6)` at depth 1, from the whole stream and from its
own rows alone. -/
theorem C10_thread_independence_witness :
    (threadsFit 3 rowsInterleaved ∧
      ∀ a b th, a.ThreadIndex = b.ThreadIndex →
        CanMerge (clearIndex a) (clearIndex b) th = CanMerge a b th) ∧
    (∃ st st1, pass CanMerge 1 3 rowsInterleaved = some st ∧
      pass CanMerge 1 3 (rowsInterleaved.filter (selRow 7)) = some st1 ∧
      (st.newData.filter (selEvent 7)).map clearIndex =
        (st1.newData.filter (selEvent 7)).map clearIndex) ∧
    (pass CanMerge 1 3 rowsInterleaved).map
        (fun st => (st.newData.filter (selEvent 7)).map
          (fun e => (e.ID, e.Depth, e.StartTime, e.EndTime))) =
      some [(2, 0, 1, 10), (4, 1, 3, 6)] ∧
    (pass CanMerge 1 3 (rowsInterleaved.filter (selRow 7))).map
        (fun st => (st.newData.filter (selEvent 7)).map
          (fun e => (e.ID, e.Depth, e.StartTime, e.EndTime))) =
      some [(2, 0, 1, 10), (4, 1, 3, 6)] :=
  ⟨⟨by decide, fun _ _ _ _ => rfl⟩,
   C10_thread_independence CanMerge 1 3 rowsInterleaved 7 (by decide) (fun _ _ _ _ => rfl),
   by with_unfolding_all decide, by with_unfolding_all decide⟩

end Context2
